import Mathlib

/-!
Verification development for the `Ini` single-header INI parser/rewriter
(`ini.hpp`).  The C++ code is shallowly embedded over `Str := List Char`
(`std::string`) and `List Str` (the line sequence obtained by repeated
`std::getline(iss, line, '\n')`).  Every definition mirrors the body of the
corresponding C++ member function; file I/O is modelled by an explicit
operation trace (`FsOp`) since the engine only ever loads the whole file and,
on a successful write, overwrites it whole.
-/

namespace IniHpp

/-- Model of `std::string`: a list of characters. -/
abbrev Str := List Char

/-- The whitespace set used by `Ini::trim` (`" \t\n\r\f\v"`). -/
def isWs (c : Char) : Bool :=
  c = ' ' || c = '\t' || c = '\n' || c = '\r' || c = '\x0c' || c = '\x0b'

/-- Model of `Ini::trim`: erase trailing whitespace (via
`find_last_not_of` + `erase`), then erase leading whitespace
(`erase(0, find_first_not_of)`). -/
def trim (s : Str) : Str :=
  ((s.reverse.dropWhile isWs).reverse).dropWhile isWs

/-- The default comment-prefix list `{ "#", ";" }` set by the constructor. -/
def defaultCommentMarks : List Str := [['#'], [';']]

/-- Model of `Ini::is_ignore_line`: empty line, or some configured comment
mark occurs at position 0 (`line.find(p) == 0`, i.e. the mark is a prefix of
the line). -/
def is_ignore_line (marks : List Str) (line : Str) : Bool :=
  line.isEmpty || marks.any (fun p => p.isPrefixOf line)

/-- First index of a character in a line (`std::string::find`). -/
def findChar (c : Char) (s : Str) : Option Nat :=
  s.findIdx? (fun d => d = c)

/-- Result of one iteration of the `try_get_field` loop body. -/
inductive RStep where
  /-- One of the `return false` paths was taken (malformed line, or a
  matching field whose trimmed value is empty). -/
  | dead : RStep
  /-- The first match was reached and its nonempty trimmed value returned. -/
  | found : Str → RStep
  /-- The loop continues with the (possibly updated) `current_section`. -/
  | cont : Str → RStep
deriving DecidableEq

/-- One iteration of the `try_get_field` loop body on raw line `l`, with
`current_section = cs`.  Mirrors `ini.hpp` lines 276-319. -/
def rStep (sep : Char) (marks : List Str) (ts tf : Str) (cs : Str) (l : Str) :
    RStep :=
  let line := trim l
  if is_ignore_line marks line then .cont cs
  else if line.head? = some '[' then
    match findChar ']' line with
    | none => .dead
    | some pos =>
      if pos = 1 then .dead
      else .cont ((line.drop 1).take (pos - 1))
  else if cs = [] then .dead
  else
    match findChar sep line with
    | none => .dead
    | some pos =>
      let current_field := trim (line.take pos)
      let current_value := trim (line.drop (pos + 1))
      if cs = ts ∧ current_field = tf then
        if current_value = [] then .dead else .found current_value
      else .cont cs

/-- Outcome of the whole `try_get_field` scan from a given
`current_section`. -/
inductive RRes where
  | dead : RRes
  | found : Str → RRes
  | cont : Str → RRes
deriving DecidableEq

/-- The `try_get_field` scan over a line sequence, threading
`current_section`;  `.cont cs` corresponds to falling off the end of the
document (the final `return false`), kept separate so scans compose. -/
def rScan (sep : Char) (marks : List Str) (ts tf : Str) :
    List Str → Str → RRes
  | [], cs => .cont cs
  | l :: rest, cs =>
    match rStep sep marks ts tf cs l with
    | .dead => .dead
    | .found v => .found v
    | .cont cs' => rScan sep marks ts tf rest cs'

/-- Splitting of a nonempty file text as by repeated
`std::getline(iss, line, '\n')` inside `while (!iss.eof() && !iss.fail())`:
the text split at each `'\n'`; a text ending in `'\n'` yields a final
empty line (the last `getline` fails but its cleared `line` is still
processed).  The empty-text case never reaches this splitting, see
`getLines`. -/
def splitNlAux : Str → Str → List Str
  | [], acc => [acc.reverse]
  | c :: rest, acc =>
    if c = '\n' then acc.reverse :: splitNlAux rest []
    else splitNlAux rest (c :: acc)

/-- Split a file text into the `getline` line sequence. -/
def splitNl (s : Str) : List Str := splitNlAux s []

/-- The line sequence the two loops actually see.  For an empty or missing
file, `iss << ifs.rdbuf()` inserts no characters and therefore sets
`failbit` on the `stringstream`, so the loop body never runs; otherwise
the loop consumes the `getline` split of the text. -/
def getLines (s : Str) : List Str := if s = [] then [] else splitNl s

/-- Model of `Ini::try_get_field` on a file text: run the scan from an
unset `current_section`; only a `found` outcome succeeds. -/
def try_get_field (sep : Char) (marks : List Str) (ts tf : Str)
    (content : Str) : Option Str :=
  match rScan sep marks ts tf (getLines content) [] with
  | .found v => some v
  | _ => none

/-- The three-valued `FoundMode` of `Ini::set_field`. -/
inductive Mode where
  | no_match | section_match | both_match
deriving DecidableEq

/-- The field-assignment text `target_field + field_separator_ + value`
built by `set_field`. -/
def assignLine (sep : Char) (tf v : Str) : Str := tf ++ sep :: v

/-- The header text `'[' << target_section << ']'` appended by `set_field`
when the section was never found. -/
def headerLine (ts : Str) : Str := ('[' :: ts) ++ [']']

/-- Model of `std::string(s.c_str())` as applied to the field name at the
replacement site (`ini.hpp` line 381): the C-string constructor stops at
the first NUL byte. -/
def c_str (s : Str) : Str := s.takeWhile (fun c => ¬(c = '\x00'))

/-- Result of one iteration of the `set_field` rewrite loop body. -/
inductive WStep where
  /-- A `return false` parse-abort path. -/
  | abort : WStep
  /-- Lines appended to the output buffer, and the updated
  `current_section` and `found_mode`. -/
  | emit : List Str → Str → Mode → WStep
deriving DecidableEq

/-- One iteration of the `set_field` rewrite loop body on raw line `l`
(`ini.hpp` lines 337-387).  The insertion case (`line = target_field +
separator + value + '\n' + line`) is emitted as two consecutive output
lines, which is byte-identical once the buffer is joined with one `'\n'`
after each piece. -/
def wStep (sep : Char) (marks : List Str) (ts tf v : Str) (cs : Str)
    (m : Mode) (l : Str) : WStep :=
  let line := trim l
  if is_ignore_line marks line then .emit [line] cs m
  else if line.head? = some '[' then
    match findChar ']' line with
    | none => .abort
    | some pos =>
      if pos = 1 then .abort
      else
        let ns := (line.drop 1).take (pos - 1)
        -- `found_mode = SECTION_MATCH` is set here even when the mode was
        -- already BOTH_MATCH (no guard in the source).
        if ns = ts then .emit [line] ns .section_match
        else if m = .section_match then
          .emit [assignLine sep tf v, line] ns .both_match
        else .emit [line] ns m
  else if cs = [] then .abort
  else
    match findChar sep line with
    | none => .abort
    | some pos =>
      let current_field := trim (line.take pos)
      if cs = ts ∧ current_field = tf then
        -- the replacement line is built from
        -- `std::string(target_field.c_str())`, truncating the field name
        -- at an embedded NUL; the insert and append sites use the full
        -- `target_field`.
        .emit [assignLine sep (c_str tf) v] cs .both_match
      else .emit [line] cs m

/-- The `set_field` rewrite loop: iterate `wStep` over the line sequence,
accumulating the output buffer; `none` on any parse-abort path, otherwise
the emitted lines with the final `current_section` and `found_mode`. -/
def wScan (sep : Char) (marks : List Str) (ts tf v : Str) :
    List Str → Str → Mode → Option (List Str × Str × Mode)
  | [], cs, m => some ([], cs, m)
  | l :: rest, cs, m =>
    match wStep sep marks ts tf v cs m l with
    | .abort => none
    | .emit es cs' m' =>
      match wScan sep marks ts tf v rest cs' m' with
      | none => none
      | some (o, c, mm) => some (es ++ o, c, mm)

/-- The post-loop appends of `Ini::set_field` (lines 389-397) applied to a
completed scan: `NO_MATCH` appends a fresh header and the assignment,
`SECTION_MATCH` appends just the assignment, `BOTH_MATCH` appends nothing. -/
def set_field_lines (sep : Char) (marks : List Str) (ts tf v : Str)
    (lines : List Str) : Option (List Str) :=
  match wScan sep marks ts tf v lines [] .no_match with
  | none => none
  | some (o, _, .no_match) => some (o ++ [headerLine ts, assignLine sep tf v])
  | some (o, _, .section_match) => some (o ++ [assignLine sep tf v])
  | some (o, _, .both_match) => some o

/-- Join the output buffer: each emitted line followed by one `'\n'`
(`oss << line << '\n'`), then `result.pop_back()` strips the final
terminator. -/
def joinNl (pieces : List Str) : Str :=
  ((pieces.map (fun p => p ++ ['\n'])).flatten).dropLast

/-- Model of `Ini::set_field` on a file text: `none` exactly on the parse
abort paths, otherwise the full replacement text. -/
def set_field (sep : Char) (marks : List Str) (ts tf v : Str)
    (content : Str) : Option Str :=
  (set_field_lines sep marks ts tf v (getLines content)).map joinNl

/-! ### Value codec -/

/-- ASCII `::toupper` as applied characterwise by `read_bool`. -/
def toUpperAscii (c : Char) : Char :=
  if 'a' ≤ c ∧ c ≤ 'z' then Char.ofNat (c.toNat - 32) else c

/-- Digit value of a character in base `b` (as accepted by `strtol`):
decimal digits, then lowercase and uppercase letters, accepted only when
the value is below the base. -/
def digitVal (b : Nat) (c : Char) : Option Nat :=
  let n := c.toNat
  let raw : Option Nat :=
    if 48 ≤ n ∧ n ≤ 57 then some (n - 48)
    else if 97 ≤ n ∧ n ≤ 122 then some (n - 87)
    else if 65 ≤ n ∧ n ≤ 90 then some (n - 55)
    else none
  match raw with
  | some d => if d < b then some d else none
  | none => none

/-- Greedy digit run of `strtol`: accumulated value and number of
characters consumed. -/
def parseDigits (b : Nat) (acc consumed : Nat) : Str → Nat × Nat
  | [] => (acc, consumed)
  | c :: rest =>
    match digitVal b c with
    | some d => parseDigits b (acc * b + d) (consumed + 1) rest
    | none => (acc, consumed)

/-- Model of C `strtol(s, &endptr, b)` for bases 8, 10 and 16 as used by
`is_convertable_to_long` and `std::stol`: skip whitespace, optional sign,
for base 16 an optional `0x`/`0X` prefix (consumed only when a hex digit
follows), then a greedy digit run.  Returns the value (as an unbounded
integer; `LONG` overflow clamping is outside the model) and the offset of
`endptr` from the start of the string; when no digits are consumed the
offset is 0 (`endptr == nptr`). -/
def strtol (b : Nat) (s : Str) : Int × Nat :=
  let nWs := (s.takeWhile isWs).length
  let s1 := s.dropWhile isWs
  let sgn : Int × Nat × Str :=
    match s1 with
    | c :: r => if c = '-' then (-1, 1, r) else if c = '+' then (1, 1, r)
                else (1, 0, c :: r)
    | [] => (1, 0, [])
  let pre : Nat × Str :=
    if b = 16 then
      match sgn.2.2 with
      | '0' :: x :: c :: r =>
        if (x = 'x' ∨ x = 'X') ∧ (digitVal 16 c).isSome then (2, c :: r)
        else (0, sgn.2.2)
      | _ => (0, sgn.2.2)
    else (0, sgn.2.2)
  let d := parseDigits b 0 0 pre.2
  if d.2 = 0 then (0, 0)
  else (sgn.1 * (d.1 : Int), nWs + sgn.2.1 + pre.1 + d.2)

/-- Model of `Ini::is_convertable_to_long`: the text fully consumes as a
base-10, base-8 or base-16 literal (`*endptr == '\0'` after each
`std::strtol` attempt, in that order). -/
def is_convertable_to_long (s : Str) : Bool :=
  (strtol 10 s).2 = s.length || (strtol 8 s).2 = s.length ||
    (strtol 16 s).2 = s.length

/-- Model of `std::stol(s)`: base-10 `strtol`; fails with
`std::invalid_argument` (caught by `read_int`) when no digits are
consumed, and with `std::out_of_range` (also caught) when the value lies
outside the 64-bit `long` range. -/
def stol (s : Str) : Option Int :=
  let r := strtol 10 s
  if r.2 = 0 then none
  else if r.1 < -(2 ^ 63) ∨ 2 ^ 63 - 1 < r.1 then none
  else some r.1

/-- Decimal digit character (`'0' + d`). -/
def decChar (d : Nat) : Char := Char.ofNat (48 + d)

/-- Decimal text of a natural number, as printed by
`std::stringstream << value`. -/
def natToStr (n : Nat) : Str :=
  if n < 10 then [decChar n]
  else natToStr (n / 10) ++ [decChar (n % 10)]
decreasing_by simp_wf; omega

/-- Decimal text of an `int` value, as printed by
`std::stringstream << value`. -/
def intToStr (i : Int) : Str :=
  if i < 0 then '-' :: natToStr i.natAbs else natToStr i.toNat

/-! ### Public API

Each call reopens the file, so an operation is a function of the current
file text.  The file-resource usage of a call is recorded as an explicit
trace: the read path constructs only an input stream, the write path
additionally opens the file for writing when (and only when) the scan
succeeded.  (`ofstream` open failure is outside the model: the modelled
overwrite always succeeds.) -/

/-- One file-resource operation performed by an API call. -/
inductive FsOp where
  /-- `std::ifstream` + `rdbuf`: load the whole text, no modification. -/
  | openR : FsOp
  /-- `std::ofstream` + `<< result`: overwrite the whole text. -/
  | openW : Str → FsOp
deriving DecidableEq

/-- Effect of a trace of file operations on the on-disk text. -/
def applyOps : List FsOp → Str → Str
  | [], fs => fs
  | .openR :: r, fs => applyOps r fs
  | .openW c :: r, _ => applyOps r c

/-- Model of `Ini::read_str`: result value and the file-operation trace. -/
def read_str (sep : Char) (marks : List Str) (ts tf dflt : Str)
    (fs : Str) : Str × List FsOp :=
  (match try_get_field sep marks ts tf fs with
   | none => dflt
   | some s => s, [.openR])

/-- Model of `Ini::read_bool`: uppercase the raw value, accept
`TRUE`/`1`/`FALSE`/`0`, anything else yields the default. -/
def read_bool (sep : Char) (marks : List Str) (ts tf : Str) (dflt : Bool)
    (fs : Str) : Bool × List FsOp :=
  (match try_get_field sep marks ts tf fs with
   | none => dflt
   | some s =>
     let u := s.map toUpperAscii
     if u = ['T', 'R', 'U', 'E'] ∨ u = ['1'] then true
     else if u = ['F', 'A', 'L', 'S', 'E'] ∨ u = ['0'] then false
     else dflt, [.openR])

/-- The implicit `long` → `int` conversion on `read_int`'s return path:
two's-complement wrap-around to 32 bits. -/
def narrow_int (v : Int) : Int :=
  let w := v % 2 ^ 32
  if w < 2 ^ 31 then w else w - 2 ^ 32

/-- Model of `Ini::read_int`: validate with `is_convertable_to_long`, then
re-parse strictly in base 10 with `std::stol` (the validated base is not
used for the parse); the `long` result is narrowed to `int` on return. -/
def read_int (sep : Char) (marks : List Str) (ts tf : Str) (dflt : Int)
    (fs : Str) : Int × List FsOp :=
  (match try_get_field sep marks ts tf fs with
   | none => dflt
   | some s =>
     if is_convertable_to_long s then
       match stol s with
       | some v => narrow_int v
       | none => dflt
     else dflt, [.openR])

/-- Model of `Ini::read_double`, parameterised by the platform `std::stod`
lexer (floating-point lexing and value representation are outside the
model; only the surrounding control flow is modelled). -/
def read_double {α : Type} (stod : Str → Option α) (sep : Char)
    (marks : List Str) (ts tf : Str) (dflt : α) (fs : Str) : α × List FsOp :=
  (match try_get_field sep marks ts tf fs with
   | none => dflt
   | some s =>
     match stod s with
     | some x => x
     | none => dflt, [.openR])

/-- Model of `Ini::write_str` (and of `set_field`'s success flag): on a
parse abort the file is never opened for writing. -/
def write_str (sep : Char) (marks : List Str) (ts tf v : Str)
    (fs : Str) : Bool × List FsOp :=
  match set_field sep marks ts tf v fs with
  | none => (false, [.openR])
  | some r => (true, [.openR, .openW r])

/-- Model of `Ini::write_bool`: serialise as `true`/`false`. -/
def write_bool (sep : Char) (marks : List Str) (ts tf : Str) (value : Bool)
    (fs : Str) : Bool × List FsOp :=
  write_str sep marks ts tf
    (if value then ['t', 'r', 'u', 'e'] else ['f', 'a', 'l', 's', 'e']) fs

/-- Model of `Ini::write_int`: serialise in decimal. -/
def write_int (sep : Char) (marks : List Str) (ts tf : Str) (value : Int)
    (fs : Str) : Bool × List FsOp :=
  write_str sep marks ts tf (intToStr value) fs

/-- Model of `Ini::write_double`, parameterised by the platform
`std::stringstream` formatting of the `double` argument. -/
def write_double {α : Type} (fmt : α → Str) (sep : Char)
    (marks : List Str) (ts tf : Str) (value : α) (fs : Str) :
    Bool × List FsOp :=
  write_str sep marks ts tf (fmt value) fs

/-! ### Derived line classifications

These predicates restate, for use in theorem statements, which raw lines
take which branch of the two scan loops; they are read off the same tests
the loops perform. -/

/-- A raw line on which both scan loops take a `return false` branch
before any match bookkeeping: a section header with no `]` or an empty
name, a field-shaped line while `current_section` is still unset, or a
non-ignored line with no separator. -/
def malformedLine (sep : Char) (marks : List Str) (cs l : Str) : Bool :=
  let t := trim l
  if is_ignore_line marks t then false
  else if t.head? = some '[' then
    match findChar ']' t with
    | none => true
    | some pos => decide (pos = 1)
  else if cs = [] then true
  else (findChar sep t).isNone

/-- The section name a raw line denotes when it is a well-formed,
non-ignored section-header line; `none` otherwise. -/
def headerNameOf (marks : List Str) (l : Str) : Option Str :=
  let t := trim l
  if is_ignore_line marks t then none
  else if t.head? = some '[' then
    match findChar ']' t with
    | none => none
    | some pos => if pos = 1 then none else some ((t.drop 1).take (pos - 1))
  else none

/-- A raw line that stays inside the current section without touching the
target field: ignored, or a separator-bearing field line whose trimmed
name differs from `tf`. -/
def isBodyLine (sep : Char) (marks : List Str) (tf : Str) (l : Str) : Bool :=
  let t := trim l
  if is_ignore_line marks t then true
  else if t.head? = some '[' then false
  else
    match findChar sep t with
    | none => false
    | some pos => decide (trim (t.take pos) ≠ tf)

/-- Relation between an input line sequence and the loop-emitted part of a
rewrite output: element by element and in order, each input line is either
kept as its trimmed text, replaced by the assignment built from the
NUL-truncated field name (`asgC`, the `std::string(c_str())` replacement
line), or kept (trimmed) with the untruncated assignment (`asg`) inserted
immediately before it.  Everything the loop emits is of one of these three
shapes. -/
inductive Frame (asg asgC : Str) : List Str → List Str → Prop where
  | nil : Frame asg asgC [] []
  | keep {l : Str} {t o : List Str} : Frame asg asgC t o →
      Frame asg asgC (l :: t) (trim l :: o)
  | replace {l : Str} {t o : List Str} : Frame asg asgC t o →
      Frame asg asgC (l :: t) (asgC :: o)
  | insert {l : Str} {t o : List Str} : Frame asg asgC t o →
      Frame asg asgC (l :: t) (asg :: trim l :: o)

end IniHpp

namespace IniHpp

/-! ## Infrastructure lemmas -/

theorem dropWhile_head_false {α : Type} (p : α → Bool) :
    ∀ (l : List α) (c : α), (l.dropWhile p).head? = some c → p c = false := by
  intro l
  induction l with
  | nil => intro c h; simp [List.dropWhile] at h
  | cons a t ih =>
    intro c h
    rw [List.dropWhile_cons] at h
    by_cases hp : p a
    · rw [if_pos hp] at h; exact ih c h
    · rw [if_neg hp] at h
      simp only [List.head?_cons, Option.some.injEq] at h
      subst h
      exact Bool.eq_false_iff.mpr hp

theorem rdropWhile_getLast_false {α : Type} (p : α → Bool) :
    ∀ (l : List α) (c : α), (l.rdropWhile p).getLast? = some c →
      p c = false := by
  intro l
  induction l using List.reverseRecOn with
  | nil => intro c h; simp [List.rdropWhile] at h
  | append_singleton xs x ih =>
    intro c h
    rw [List.rdropWhile_concat] at h
    by_cases hp : p x
    · rw [if_pos hp] at h; exact ih c h
    · rw [if_neg hp] at h
      rw [List.getLast?_concat] at h
      simp only [Option.some.injEq] at h
      subst h
      exact Bool.eq_false_iff.mpr hp

theorem trim_as_rdropWhile (s : Str) :
    trim s = List.dropWhile isWs (List.rdropWhile isWs s) := rfl

theorem trim_eq_self {s : Str} (h1 : ∀ c ∈ s.head?, isWs c = false)
    (h2 : ∀ c ∈ s.getLast?, isWs c = false) : trim s = s := by
  have e1 : List.rdropWhile isWs s = s := by
    rw [List.rdropWhile_eq_self_iff]
    intro hl
    have := h2 (s.getLast hl) (by simp [List.getLast?_eq_getLast s hl])
    simp [this]
  rw [trim_as_rdropWhile, e1]
  cases s with
  | nil => rfl
  | cons c t =>
    have := h1 c rfl
    simp [List.dropWhile_cons, this]

theorem trim_head_ws {s : Str} : ∀ c ∈ (trim s).head?, isWs c = false := by
  intro c hc
  simp only [Option.mem_def] at hc
  exact dropWhile_head_false isWs (List.rdropWhile isWs s) c hc

theorem trim_last_ws {s : Str} : ∀ c ∈ (trim s).getLast?, isWs c = false := by
  intro c hc
  simp only [Option.mem_def] at hc
  obtain ⟨a, ha⟩ := List.dropWhile_suffix (l := List.rdropWhile isWs s) isWs
  have hlast : (List.rdropWhile isWs s).getLast? = some c := by
    rw [← ha, List.getLast?_append]
    rw [trim_as_rdropWhile] at hc
    rw [hc]; rfl
  exact rdropWhile_getLast_false isWs s c hlast

theorem trim_idem (s : Str) : trim (trim s) = trim s :=
  trim_eq_self trim_head_ws trim_last_ws

theorem rScan_append (sep : Char) (marks : List Str) (ts tf : Str)
    (a b : List Str) (cs : Str) :
    rScan sep marks ts tf (a ++ b) cs =
      match rScan sep marks ts tf a cs with
      | .dead => .dead
      | .found v => .found v
      | .cont c => rScan sep marks ts tf b c := by
  induction a generalizing cs with
  | nil => simp [rScan]
  | cons l t ih =>
    simp only [List.cons_append, rScan]
    cases rStep sep marks ts tf cs l with
    | dead => rfl
    | found v => rfl
    | cont c => exact ih c

theorem wScan_append (sep : Char) (marks : List Str) (ts tf v : Str)
    (a b : List Str) (cs : Str) (m : Mode) :
    wScan sep marks ts tf v (a ++ b) cs m =
      match wScan sep marks ts tf v a cs m with
      | none => none
      | some (o, c, mm) =>
        match wScan sep marks ts tf v b c mm with
        | none => none
        | some (o2, c2, m2) => some (o ++ o2, c2, m2) := by
  induction a generalizing cs m with
  | nil =>
    simp only [List.nil_append, wScan]
    cases wScan sep marks ts tf v b cs m with
    | none => rfl
    | some r => obtain ⟨o, c, mm⟩ := r; rfl
  | cons l t ih =>
    simp only [List.cons_append, wScan]
    cases wStep sep marks ts tf v cs m l with
    | abort => rfl
    | emit es cs' m' =>
      dsimp only [List.append_eq]
      rw [ih]
      rcases ht : wScan sep marks ts tf v t cs' m' with _ | ⟨o, c, mm⟩ <;>
        simp only [ht]
      rcases hb : wScan sep marks ts tf v b c mm with _ | ⟨o2, c2, m2⟩ <;>
        simp only [hb]
      simp

/-- On a malformed line, the lookup loop takes a `return false` branch. -/
theorem rStep_malformed {sep : Char} {marks : List Str} {ts tf cs l : Str}
    (h : malformedLine sep marks cs l = true) :
    rStep sep marks ts tf cs l = .dead := by
  unfold malformedLine at h
  unfold rStep
  by_cases hig : is_ignore_line marks (trim l) = true
  · simp [hig] at h
  · simp only [Bool.not_eq_true] at hig
    simp only [hig, if_false, Bool.false_eq_true] at h ⊢
    by_cases hhd : (trim l).head? = some '['
    · simp only [hhd, if_true, if_pos] at h ⊢
      cases hf : findChar ']' (trim l) with
      | none => rfl
      | some pos =>
        rw [hf] at h
        simp only [decide_eq_true_eq] at h
        simp [h]
    · simp only [hhd, if_false] at h ⊢
      by_cases hcs : cs = []
      · simp [hcs]
      · simp only [hcs, if_false] at h ⊢
        cases hf : findChar sep (trim l) with
        | none => rfl
        | some pos => rw [hf] at h; simp at h

/-- On a malformed line, the rewrite loop takes a `return false` branch. -/
theorem wStep_malformed {sep : Char} {marks : List Str} {ts tf v cs l : Str}
    {m : Mode} (h : malformedLine sep marks cs l = true) :
    wStep sep marks ts tf v cs m l = .abort := by
  unfold malformedLine at h
  unfold wStep
  by_cases hig : is_ignore_line marks (trim l) = true
  · simp [hig] at h
  · simp only [Bool.not_eq_true] at hig
    simp only [hig, if_false, Bool.false_eq_true] at h ⊢
    by_cases hhd : (trim l).head? = some '['
    · simp only [hhd, if_true, if_pos] at h ⊢
      cases hf : findChar ']' (trim l) with
      | none => rfl
      | some pos =>
        rw [hf] at h
        simp only [decide_eq_true_eq] at h
        simp [h]
    · simp only [hhd, if_false] at h ⊢
      by_cases hcs : cs = []
      · simp [hcs]
      · simp only [hcs, if_false] at h ⊢
        cases hf : findChar sep (trim l) with
        | none => rfl
        | some pos => rw [hf] at h; simp at h

theorem getLines_eq {fs : Str} (h : fs ≠ []) : getLines fs = splitNl fs :=
  if_neg h

theorem bad_of_singleton {pre post : List Str} {bad : Str}
    (h : pre ++ bad :: post = ([[]] : List Str)) : bad = [] := by
  rcases pre with _ | ⟨a, t⟩
  · simp at h
    exact h.1
  · simp at h

theorem malformedLine_nil (sep : Char) (marks : List Str) (cs : Str) :
    malformedLine sep marks cs [] = false := rfl

theorem rStep_nil (sep : Char) (marks : List Str) (ts tf cs : Str) :
    rStep sep marks ts tf cs [] = .cont cs := rfl

/-- A NUL-free string survives the C-string constructor unchanged. -/
theorem c_str_eq_self {s : Str} (h : '\x00' ∉ s) : c_str s = s := by
  induction s with
  | nil => rfl
  | cons c t ih =>
    have hc : ¬(c = '\x00') := fun e => h (e ▸ List.mem_cons_self c t)
    have ht : '\x00' ∉ t := fun e => h (List.mem_cons_of_mem c e)
    unfold c_str at ih ⊢
    rw [List.takeWhile_cons]
    simp [hc, ih ht]
    intro x hx e
    exact ht (e ▸ hx)

/-- Values already in `int` range are fixed by the `long → int`
narrowing. -/
theorem narrow_int_eq_self {i : Int} (h1 : -(2 ^ 31) ≤ i) (h2 : i < 2 ^ 31) :
    narrow_int i = i := by
  simp only [narrow_int]
  split <;> omega

/-- A lookup whose scan reaches a malformed line yields nothing. -/
theorem try_get_field_of_malformed {sep : Char} {marks : List Str}
    {ts tf fs cs bad : Str} {pre post : List Str}
    (hsplit : splitNl fs = pre ++ bad :: post)
    (hpre : rScan sep marks ts tf pre [] = .cont cs)
    (hbad : malformedLine sep marks cs bad = true) :
    try_get_field sep marks ts tf fs = none := by
  have hbadne : bad ≠ [] := by
    intro h0
    rw [h0, malformedLine_nil] at hbad
    cases hbad
  have hfs : fs ≠ [] := by
    intro h0
    rw [h0] at hsplit
    have h1 : pre ++ bad :: post = ([[]] : List Str) := hsplit.symm
    exact hbadne (bad_of_singleton h1)
  unfold try_get_field
  rw [getLines_eq hfs, hsplit, rScan_append, hpre]
  show (match rScan sep marks ts tf (bad :: post) cs with
        | .found v => some v | _ => none) = none
  rw [show rScan sep marks ts tf (bad :: post) cs =
        match rStep sep marks ts tf cs bad with
        | .dead => .dead
        | .found v => .found v
        | .cont cs' => rScan sep marks ts tf post cs' from rfl]
  rw [rStep_malformed hbad]

/-- A rewrite whose scan reaches a malformed line aborts. -/
theorem set_field_of_malformed {sep : Char} {marks : List Str}
    {ts tf v fs cs bad : Str} {pre post o : List Str} {m : Mode}
    (hsplit : splitNl fs = pre ++ bad :: post)
    (hpre : wScan sep marks ts tf v pre [] .no_match = some (o, cs, m))
    (hbad : malformedLine sep marks cs bad = true) :
    set_field sep marks ts tf v fs = none := by
  have hbadne : bad ≠ [] := by
    intro h0
    rw [h0, malformedLine_nil] at hbad
    cases hbad
  have hfs : fs ≠ [] := by
    intro h0
    rw [h0] at hsplit
    have h1 : pre ++ bad :: post = ([[]] : List Str) := hsplit.symm
    exact hbadne (bad_of_singleton h1)
  unfold set_field set_field_lines
  rw [getLines_eq hfs, hsplit, wScan_append, hpre]
  show Option.map joinNl
      (match (match wScan sep marks ts tf v (bad :: post) cs m with
              | none => none
              | some (o2, c2, m2) => some (o ++ o2, c2, m2)) with
       | none => none
       | some (o, _, .no_match) => some (o ++ [headerLine ts, assignLine sep tf v])
       | some (o, _, .section_match) => some (o ++ [assignLine sep tf v])
       | some (o, _, .both_match) => some o) = none
  rw [show wScan sep marks ts tf v (bad :: post) cs m =
        match wStep sep marks ts tf v cs m bad with
        | .abort => none
        | .emit es cs' m' =>
          match wScan sep marks ts tf v post cs' m' with
          | none => none
          | some (o, c, mm) => some (es ++ o, c, mm) from rfl]
  rw [wStep_malformed hbad]
  rfl

/-- Every step of the rewrite loop emits the trimmed input line, the
NUL-truncated assignment (replacement), or the full assignment followed by
the trimmed input line (insertion before a header). -/
theorem wStep_emit_shapes {sep : Char} {marks : List Str}
    {ts tf v cs l cs' : Str} {es : List Str} {m m' : Mode}
    (h : wStep sep marks ts tf v cs m l = .emit es cs' m') :
    es = [trim l] ∨ es = [assignLine sep (c_str tf) v] ∨
      es = [assignLine sep tf v, trim l] := by
  simp only [wStep] at h
  repeat' split at h
  all_goals cases h
  all_goals simp

/-- The loop-emitted part of a successful rewrite is frame-related to the
input lines. -/
theorem wScan_frame (sep : Char) (marks : List Str) (ts tf v : Str) :
    ∀ (lines : List Str) (cs : Str) (m : Mode) (o : List Str) (c : Str)
      (mm : Mode), wScan sep marks ts tf v lines cs m = some (o, c, mm) →
      Frame (assignLine sep tf v) (assignLine sep (c_str tf) v) lines o := by
  intro lines
  induction lines with
  | nil =>
    intro cs m o c mm h
    simp only [wScan, Option.some.injEq, Prod.mk.injEq] at h
    rw [← h.1]
    exact Frame.nil
  | cons l rest ih =>
    intro cs m o c mm h
    simp only [wScan] at h
    rcases hw : wStep sep marks ts tf v cs m l with _ | ⟨es, cs', m'⟩
    · simp [hw] at h
    · simp only [hw] at h
      rcases hs : wScan sep marks ts tf v rest cs' m' with _ | ⟨o2, c2, m2⟩
      · simp [hs] at h
      · simp only [hs, Option.some.injEq, Prod.mk.injEq] at h
        obtain ⟨ho, -, -⟩ := h
        subst ho
        rcases wStep_emit_shapes hw with h1 | h1 | h1 <;> subst h1
        · exact Frame.keep (ih cs' m' o2 c2 m2 hs)
        · exact Frame.replace (ih cs' m' o2 c2 m2 hs)
        · exact Frame.insert (ih cs' m' o2 c2 m2 hs)

/-- Index of a character occurring right after an occurrence-free chunk. -/
theorem findChar_append_of_not_mem {c : Char} :
    ∀ {a : Str}, c ∉ a → ∀ b : Str, findChar c (a ++ c :: b) = some a.length := by
  intro a
  induction a with
  | nil =>
    intro _ b
    simp [findChar, List.findIdx?_cons]
  | cons x t ih =>
    intro h b
    have hx : ¬(x = c) := fun e => h (by rw [e]; exact List.mem_cons_self c t)
    have ht : c ∉ t := fun m => h (List.mem_cons_of_mem x m)
    simp only [findChar, List.cons_append, List.findIdx?_cons, decide_eq_true_eq,
      hx, if_false, List.findIdx?_succ]
    have := ih ht b
    simp only [findChar] at this
    rw [this]
    simp [List.length_cons]

/-- A character absent from a string is never found. -/
theorem findChar_none_of_not_mem {c : Char} :
    ∀ {a : Str}, c ∉ a → findChar c a = none := by
  intro a
  induction a with
  | nil => intro _; rfl
  | cons x t ih =>
    intro h
    have hx : ¬(x = c) := fun e => h (by rw [e]; exact List.mem_cons_self c t)
    have ht : c ∉ t := fun m => h (List.mem_cons_of_mem x m)
    simp only [findChar, List.findIdx?_cons, decide_eq_true_eq, hx, if_false,
      List.findIdx?_succ]
    have := ih ht
    simp only [findChar] at this
    rw [this]
    rfl

/-- How the rewrite loop body treats a well-formed header line naming
`ns`: `current_section` becomes `ns`, and the mode update mirrors the
source, including the unguarded reset to `SECTION_MATCH` on `ns = ts`. -/
theorem wStep_header {sep : Char} {marks : List Str} {ts tf v cs ns : Str}
    {m : Mode} {hl : Str} (htrim : trim hl = headerLine ns)
    (hnb : ']' ∉ ns) (hne : ns ≠ [])
    (hig : is_ignore_line marks (headerLine ns) = false) :
    wStep sep marks ts tf v cs m hl =
      (if ns = ts then .emit [trim hl] ns .section_match
       else if m = .section_match then
         .emit [assignLine sep tf v, trim hl] ns .both_match
       else .emit [trim hl] ns m) := by
  have hfind : findChar ']' (headerLine ns) = some (ns.length + 1) := by
    have : ('[' :: ns) ++ ']' :: ([] : Str) = headerLine ns := by
      simp [headerLine]
    rw [← this]
    rw [findChar_append_of_not_mem (by
      intro hmem
      rcases List.mem_cons.mp hmem with h1 | h1
      · cases h1
      · exact hnb h1) []]
    simp
  have hpos : ¬(ns.length + 1 = 1) := by
    intro h
    have : ns.length = 0 := by omega
    exact hne (List.length_eq_zero.mp this)
  have hname : ((headerLine ns).drop 1).take (ns.length + 1 - 1) = ns := by
    show ((('[' :: (ns ++ [']'])).drop 1).take (ns.length + 1 - 1)) = ns
    simp only [List.drop_succ_cons, List.drop_zero, Nat.add_sub_cancel]
    exact List.take_left' rfl
  simp only [wStep, htrim, hfind, hpos, if_false]
  have hhd : (headerLine ns).head? = some '[' := rfl
  simp only [hig, Bool.false_eq_true, if_false, hhd, if_true, hname, if_pos]

/-- How the lookup loop body treats a well-formed header line naming `ns`:
the scan continues with `current_section = ns`. -/
theorem rStep_header {sep : Char} {marks : List Str} {ts tf cs ns : Str}
    {hl : Str} (htrim : trim hl = headerLine ns)
    (hnb : ']' ∉ ns) (hne : ns ≠ [])
    (hig : is_ignore_line marks (headerLine ns) = false) :
    rStep sep marks ts tf cs hl = .cont ns := by
  have hfind : findChar ']' (headerLine ns) = some (ns.length + 1) := by
    have : ('[' :: ns) ++ ']' :: ([] : Str) = headerLine ns := by
      simp [headerLine]
    rw [← this]
    rw [findChar_append_of_not_mem (by
      intro hmem
      rcases List.mem_cons.mp hmem with h1 | h1
      · cases h1
      · exact hnb h1) []]
    simp
  have hpos : ¬(ns.length + 1 = 1) := by
    intro h
    have : ns.length = 0 := by omega
    exact hne (List.length_eq_zero.mp this)
  have hname : ((headerLine ns).drop 1).take (ns.length + 1 - 1) = ns := by
    show ((('[' :: (ns ++ [']'])).drop 1).take (ns.length + 1 - 1)) = ns
    simp only [List.drop_succ_cons, List.drop_zero, Nat.add_sub_cancel]
    exact List.take_left' rfl
  have hhd : (headerLine ns).head? = some '[' := rfl
  simp only [rStep, htrim, hfind, hpos, if_false, hig, Bool.false_eq_true,
    hhd, if_true, hname, if_pos]

/-- A nonempty text ending in a line terminator splits into lines ending
with one final empty line (the last, failed `getline` still runs the loop
body on its cleared buffer). -/
theorem splitNlAux_trailing :
    ∀ (s : Str) (acc : Str), s ≠ [] → s.getLast? = some '\n' →
      ∃ ys, splitNlAux s acc = ys ++ [[]] := by
  intro s
  induction s with
  | nil => intro acc h _; exact absurd rfl h
  | cons c rest ih =>
    intro acc _ hlast
    by_cases hc : c = '\n'
    · subst hc
      simp only [splitNlAux, if_pos rfl]
      cases rest with
      | nil => exact ⟨[acc.reverse], rfl⟩
      | cons d t =>
        have hlast' : (d :: t).getLast? = some '\n' := by
          rwa [List.getLast?_cons_cons] at hlast
        obtain ⟨ys, hys⟩ := ih [] (by simp) hlast'
        exact ⟨acc.reverse :: ys, by rw [hys]; simp⟩
    · simp only [splitNlAux, if_neg hc]
      cases rest with
      | nil => simp only [List.getLast?_singleton, Option.some.injEq] at hlast
               exact absurd hlast hc
      | cons d t =>
        have hlast' : (d :: t).getLast? = some '\n' := by
          rwa [List.getLast?_cons_cons] at hlast
        exact ih (c :: acc) (by simp) hlast'

/-- The rewrite loop emits an empty output line for an empty input line,
leaving section and mode untouched. -/
theorem wScan_empty_line (sep : Char) (marks : List Str) (ts tf v : Str)
    (cs : Str) (m : Mode) :
    wScan sep marks ts tf v [[]] cs m = some ([[]], cs, m) := rfl

/-- One unfolding of the rewrite loop. -/
theorem wScan_cons (sep : Char) (marks : List Str) (ts tf v l : Str)
    (rest : List Str) (cs : Str) (m : Mode) :
    wScan sep marks ts tf v (l :: rest) cs m =
      match wStep sep marks ts tf v cs m l with
      | .abort => none
      | .emit es cs' m' =>
        match wScan sep marks ts tf v rest cs' m' with
        | none => none
        | some (o, c, mm) => some (es ++ o, c, mm) := rfl

/-- The mode never returns to `NO_MATCH`: a step ending there started
there. -/
theorem wStep_mode_back {sep : Char} {marks : List Str}
    {ts tf v cs l cs' : Str} {es : List Str} {m : Mode}
    (h : wStep sep marks ts tf v cs m l = .emit es cs' .no_match) :
    m = .no_match := by
  simp only [wStep] at h
  repeat' split at h
  all_goals cases h
  all_goals rfl

/-- The scan never returns to `NO_MATCH` either. -/
theorem wScan_mode_back {sep : Char} {marks : List Str} {ts tf v : Str} :
    ∀ (lines : List Str) (cs : Str) (m : Mode) (o : List Str) (c : Str),
      wScan sep marks ts tf v lines cs m = some (o, c, .no_match) →
      m = .no_match := by
  intro lines
  induction lines with
  | nil =>
    intro cs m o c h
    simp only [wScan, Option.some.injEq, Prod.mk.injEq] at h
    exact h.2.2
  | cons l rest ih =>
    intro cs m o c h
    rw [wScan_cons] at h
    rcases hw : wStep sep marks ts tf v cs m l with _ | ⟨es, cs', m'⟩
    · simp [hw] at h
    · simp only [hw] at h
      rcases hs : wScan sep marks ts tf v rest cs' m' with _ | ⟨o2, c2, m2⟩
      · simp [hs] at h
      · simp only [hs, Option.some.injEq, Prod.mk.injEq] at h
        obtain ⟨-, -, hm⟩ := h
        subst hm
        have hm' : m' = .no_match := ih cs' m' o2 c2 hs
        subst hm'
        exact wStep_mode_back hw

/-- A step that starts and ends in `NO_MATCH` away from the target section
emits the trimmed line and stays away from the target section. -/
theorem wStep_no_match_keep {sep : Char} {marks : List Str}
    {ts tf v cs l cs' : Str} {es : List Str}
    (h : wStep sep marks ts tf v cs .no_match l = .emit es cs' .no_match)
    (hcs : ¬(cs = ts)) : es = [trim l] ∧ ¬(cs' = ts) := by
  simp only [wStep] at h
  repeat' split at h
  all_goals cases h
  all_goals exact ⟨rfl, by assumption⟩

/-- In `NO_MATCH` away from the target, a successful scan emits exactly
the trimmed lines and stays away from the target. -/
theorem wScan_no_match_frame {sep : Char} {marks : List Str}
    {ts tf v : Str} :
    ∀ (lines : List Str) (cs : Str) (o : List Str) (c : Str),
      wScan sep marks ts tf v lines cs .no_match = some (o, c, .no_match) →
      ¬(cs = ts) → o = lines.map trim ∧ ¬(c = ts) := by
  intro lines
  induction lines with
  | nil =>
    intro cs o c h hcs
    simp only [wScan, Option.some.injEq, Prod.mk.injEq] at h
    exact ⟨h.1.symm, h.2.1 ▸ hcs⟩
  | cons l rest ih =>
    intro cs o c h hcs
    rw [wScan_cons] at h
    rcases hw : wStep sep marks ts tf v cs .no_match l with _ | ⟨es, cs', m'⟩
    · simp [hw] at h
    · simp only [hw] at h
      rcases hs : wScan sep marks ts tf v rest cs' m' with _ | ⟨o2, c2, m2⟩
      · simp [hs] at h
      · simp only [hs, Option.some.injEq, Prod.mk.injEq] at h
        obtain ⟨ho, hc, hm⟩ := h
        subst hm
        have hm' : m' = .no_match := wScan_mode_back rest cs' m' o2 c2 hs
        subst hm'
        obtain ⟨hes, hcs'⟩ := wStep_no_match_keep hw hcs
        subst hes
        obtain ⟨ho2, hc2⟩ := ih cs' o2 c2 hs hcs'
        subst ho2
        exact ⟨ho.symm ▸ rfl, hc ▸ hc2⟩

/-- A body line (ignored, or a field with a different name) inside the
matched target section emits its trimmed text and preserves the state. -/
theorem wStep_body {sep : Char} {marks : List Str} {ts tf v l : Str}
    (hts : ¬(ts = [])) (hl : isBodyLine sep marks tf l = true) :
    wStep sep marks ts tf v ts .section_match l =
      .emit [trim l] ts .section_match := by
  unfold isBodyLine at hl
  simp only [wStep]
  by_cases hig : is_ignore_line marks (trim l) = true
  · simp [hig]
  · simp only [Bool.not_eq_true] at hig
    simp only [hig, Bool.false_eq_true, if_false] at hl ⊢
    by_cases hhd : (trim l).head? = some '['
    · simp [hhd] at hl
    · simp only [hhd, if_false] at hl ⊢
      rcases hf : findChar sep (trim l) with _ | pos
      · rw [hf] at hl; cases hl
      · rw [hf] at hl
        simp only [decide_eq_true_eq] at hl
        simp only [hts, if_false, hf]
        simp [hl]

/-- Scanning a body of such lines from `(ts, SECTION_MATCH)` emits the
trimmed lines and preserves the state. -/
theorem wScan_body {sep : Char} {marks : List Str} {ts tf v : Str}
    (hts : ¬(ts = [])) :
    ∀ (body : List Str), (∀ l ∈ body, isBodyLine sep marks tf l = true) →
      wScan sep marks ts tf v body ts .section_match =
        some (body.map trim, ts, .section_match) := by
  intro body
  induction body with
  | nil => intro _; rfl
  | cons l rest ih =>
    intro hall
    rw [wScan_cons, wStep_body hts (hall l (List.mem_cons_self l rest))]
    dsimp only
    rw [ih (fun x hx => hall x (List.mem_cons_of_mem l hx))]
    simp

/-- A step from `BOTH_MATCH` away from the target section, on a line that
is not a target-section header, emits the trimmed line, stays in
`BOTH_MATCH` and stays away from the target section. -/
theorem wStep_both_keep {sep : Char} {marks : List Str}
    {ts tf v cs l cs' : Str} {es : List Str} {m' : Mode}
    (h : wStep sep marks ts tf v cs .both_match l = .emit es cs' m')
    (hcs : ¬(cs = ts)) (hhdr : ¬(headerNameOf marks l = some ts)) :
    es = [trim l] ∧ m' = .both_match ∧ ¬(cs' = ts) := by
  unfold headerNameOf at hhdr
  simp only [wStep] at h
  repeat' split at h
  all_goals cases h
  all_goals simp_all

/-- Scanning from `(cs, BOTH_MATCH)` with `cs` off-target over lines with
no target-section header emits the trimmed lines and stays in
`BOTH_MATCH`. -/
theorem wScan_both_frame {sep : Char} {marks : List Str} {ts tf v : Str} :
    ∀ (rest : List Str) (cs : Str) (r : List Str × Str × Mode),
      wScan sep marks ts tf v rest cs .both_match = some r →
      ¬(cs = ts) → (∀ l ∈ rest, ¬(headerNameOf marks l = some ts)) →
      ∃ c', r = (rest.map trim, c', .both_match) ∧ ¬(c' = ts) := by
  intro rest
  induction rest with
  | nil =>
    intro cs r h hcs _
    simp only [wScan, Option.some.injEq] at h
    exact ⟨cs, h.symm, hcs⟩
  | cons l t ih =>
    intro cs r h hcs hall
    rw [wScan_cons] at h
    rcases hw : wStep sep marks ts tf v cs .both_match l with _ | ⟨es, cs', m'⟩
    · simp [hw] at h
    · simp only [hw] at h
      rcases hs : wScan sep marks ts tf v t cs' m' with _ | ⟨o2, c2, m2⟩
      · simp [hs] at h
      · simp only [hs, Option.some.injEq] at h
        obtain ⟨hes, hm', hcs'⟩ :=
          wStep_both_keep hw hcs (hall l (List.mem_cons_self l t))
        subst hes hm'
        obtain ⟨c', hr, hc'⟩ :=
          ih cs' (o2, c2, m2) hs hcs' (fun x hx => hall x (List.mem_cons_of_mem l hx))
        simp only [Prod.mk.injEq] at hr
        obtain ⟨ho2, hc2, hm2⟩ := hr
        subst ho2 hc2 hm2
        exact ⟨c2, by rw [← h]; simp, hc'⟩

/-! ### Decimal serialisation lemmas -/

theorem decChar_facts : ∀ d, d < 10 →
    digitVal 10 (decChar d) = some d ∧ isWs (decChar d) = false ∧
    ¬(decChar d = '-') ∧ ¬(decChar d = '+') ∧ ¬(decChar d = '\n') := by
  intro d hd
  interval_cases d <;> exact (by decide)

theorem natToStr_ne_nil (n : Nat) : natToStr n ≠ [] := by
  unfold natToStr
  split
  · simp
  · simp

theorem natToStr_chars : ∀ n c, c ∈ natToStr n → ∃ d, d < 10 ∧ c = decChar d := by
  intro n
  induction n using Nat.strong_induction_on with
  | _ n ih =>
    intro c hc
    unfold natToStr at hc
    split at hc
    · next h =>
      simp only [List.mem_singleton] at hc
      exact ⟨n, h, hc⟩
    · next h =>
      rcases List.mem_append.mp hc with h1 | h1
      · exact ih (n / 10) (by omega) c h1
      · simp only [List.mem_singleton] at h1
        exact ⟨n % 10, Nat.mod_lt n (by omega), h1⟩

theorem parseDigits_natToStr :
    ∀ n acc k ys, parseDigits 10 acc k (natToStr n ++ ys) =
      parseDigits 10 (acc * 10 ^ (natToStr n).length + n)
        (k + (natToStr n).length) ys := by
  intro n
  induction n using Nat.strong_induction_on with
  | _ n ih =>
    intro acc k ys
    by_cases h : n < 10
    · rw [show natToStr n = [decChar n] by rw [natToStr]; simp [h]]
      simp only [List.cons_append, List.nil_append, parseDigits,
        (decChar_facts n h).1, List.length_singleton, pow_one]
      rfl
    · rw [show natToStr n = natToStr (n / 10) ++ [decChar (n % 10)] by
        rw [natToStr]; simp [h]]
      rw [List.append_assoc, ih (n / 10) (by omega) acc k]
      simp only [List.cons_append, List.nil_append, parseDigits,
        (decChar_facts (n % 10) (Nat.mod_lt n (by omega))).1]
      have harith : (acc * 10 ^ (natToStr (n / 10)).length + n / 10) * 10 +
          n % 10 = acc * 10 ^ ((natToStr (n / 10)).length + 1) + n := by
        rw [pow_succ]
        have := Nat.div_add_mod n 10
        ring_nf
        omega
      rw [harith]
      congr 1
      · simp [List.length_append]
      · simp [List.length_append]
        omega

theorem strtol_natToStr (n : Nat) :
    strtol 10 (natToStr n) = ((n : Int), (natToStr n).length) := by
  obtain ⟨c, t, hct⟩ : ∃ c t, natToStr n = c :: t := by
    rcases hs : natToStr n with _ | ⟨c, t⟩
    · exact absurd hs (natToStr_ne_nil n)
    · exact ⟨c, t, rfl⟩
  obtain ⟨d, hd, hcd⟩ := natToStr_chars n c (by rw [hct]; exact List.mem_cons_self c t)
  obtain ⟨-, hws, hminus, hplus, -⟩ := decChar_facts d hd
  subst hcd
  have hparse : parseDigits 10 0 0 (natToStr n) =
      (n, (natToStr n).length) := by
    have h0 := parseDigits_natToStr n 0 0 []
    rw [List.append_nil] at h0
    rw [h0]
    simp [parseDigits]
  unfold strtol
  rw [hct] at hparse ⊢
  simp only [List.takeWhile_cons, List.dropWhile_cons, hws, Bool.false_eq_true,
    if_false, List.length_nil]
  rw [if_neg hminus, if_neg hplus]
  simp only [show ¬((10 : Nat) = 16) by decide, if_false]
  rw [hparse]
  have hlen : ¬((decChar d :: t).length = 0) := by simp
  simp [hlen]

theorem strtol_intToStr (i : Int) :
    strtol 10 (intToStr i) = (i, (intToStr i).length) := by
  by_cases hi : i < 0
  · have hparse : parseDigits 10 0 0 (natToStr i.natAbs) =
        (i.natAbs, (natToStr i.natAbs).length) := by
      have h0 := parseDigits_natToStr i.natAbs 0 0 []
      rw [List.append_nil] at h0
      rw [h0]
      simp [parseDigits]
    unfold intToStr strtol
    rw [if_pos hi]
    simp only [List.takeWhile_cons, List.dropWhile_cons,
      show isWs '-' = false by decide, Bool.false_eq_true, if_false,
      List.length_nil]
    simp only [if_true, eq_false (by decide : ¬((10 : Nat) = 16)), if_false]
    rw [hparse]
    have hlen : ¬((natToStr i.natAbs).length = 0) := by
      simp [natToStr_ne_nil]
    simp only [hlen, if_false, Prod.mk.injEq, List.length_cons]
    constructor
    · omega
    · omega
  · unfold intToStr
    rw [if_neg hi]
    rw [strtol_natToStr]
    rw [Int.toNat_of_nonneg (le_of_not_lt hi)]

theorem is_convertable_intToStr (i : Int) :
    is_convertable_to_long (intToStr i) = true := by
  unfold is_convertable_to_long
  rw [strtol_intToStr]
  simp

theorem intToStr_ne_nil (i : Int) : intToStr i ≠ [] := by
  unfold intToStr
  split
  · simp
  · simp [natToStr_ne_nil]

theorem stol_intToStr (i : Int) (h1 : -(2 ^ 63) ≤ i) (h2 : i ≤ 2 ^ 63 - 1) :
    stol (intToStr i) = some i := by
  unfold stol
  rw [strtol_intToStr]
  have h : ¬((intToStr i).length = 0) := by
    simp [intToStr_ne_nil]
  have hr : ¬(i < -(2 ^ 63) ∨ 2 ^ 63 - 1 < i) := by omega
  simp [h, hr]
  omega

theorem intToStr_not_ws (i : Int) : ∀ c ∈ intToStr i, isWs c = false := by
  intro c hc
  unfold intToStr at hc
  split at hc
  · rcases List.mem_cons.mp hc with h1 | h1
    · subst h1; decide
    · obtain ⟨d, hd, hcd⟩ := natToStr_chars _ c h1
      subst hcd
      exact (decChar_facts d hd).2.1
  · obtain ⟨d, hd, hcd⟩ := natToStr_chars _ c hc
    subst hcd
    exact (decChar_facts d hd).2.1

theorem trim_of_no_ws {s : Str} (h : ∀ c ∈ s, isWs c = false) :
    trim s = s :=
  trim_eq_self (fun c hc => h c (List.mem_of_mem_head? hc))
    (fun c hc => h c (List.mem_of_getLast?_eq_some hc))

theorem trim_intToStr (i : Int) : trim (intToStr i) = intToStr i :=
  trim_of_no_ws (intToStr_not_ws i)

theorem nl_not_mem_intToStr (i : Int) : '\n' ∉ intToStr i := by
  intro h
  have := intToStr_not_ws i '\n' h
  simp [isWs] at this

/-! ### Reading back a written assignment -/

theorem trim_assignLine {sep : Char} {tf v : Str} (htf : trim tf = tf)
    (htfne : tf ≠ []) (hv : trim v = v) (hvne : v ≠ []) :
    trim (assignLine sep tf v) = assignLine sep tf v := by
  apply trim_eq_self
  · intro c hc
    rcases tf with _ | ⟨c0, t0⟩
    · exact absurd rfl htfne
    · simp only [assignLine, List.cons_append, List.head?_cons,
        Option.mem_def, Option.some.injEq] at hc
      subst hc
      have hh := trim_head_ws (s := c0 :: t0)
      rw [htf] at hh
      exact hh c0 rfl
  · intro c hc
    rcases hvs : v.reverse with _ | ⟨cv, tv⟩
    · exact absurd (by simpa using congrArg List.reverse hvs) hvne
    · have hvform : v = tv.reverse ++ [cv] := by
        have := congrArg List.reverse hvs
        simpa using this
      have hlast : (assignLine sep tf v).getLast? = some cv := by
        rw [assignLine, hvform]
        rw [show tf ++ sep :: (tv.reverse ++ [cv]) =
          (tf ++ sep :: tv.reverse) ++ [cv] by simp]
        rw [List.getLast?_concat]
      rw [hlast] at hc
      simp only [Option.mem_def, Option.some.injEq] at hc
      subst hc
      have hvlast : v.getLast? = some cv := by
        rw [hvform, List.getLast?_concat]
      have hh := trim_last_ws (s := v)
      rw [hv] at hh
      exact hh cv hvlast

theorem findChar_assign {sep : Char} {tf v : Str} (hsep : sep ∉ tf) :
    findChar sep (assignLine sep tf v) = some tf.length :=
  findChar_append_of_not_mem hsep v

theorem assign_take {sep : Char} {tf v : Str} :
    (assignLine sep tf v).take tf.length = tf :=
  List.take_left tf (sep :: v)

theorem assign_drop {sep : Char} {tf v : Str} :
    (assignLine sep tf v).drop (tf.length + 1) = v := by
  rw [show assignLine sep tf v = (tf ++ [sep]) ++ v by simp [assignLine]]
  exact List.drop_left' (by simp)

/-- The lookup loop recognises the freshly written assignment inside the
target section and returns the written value. -/
theorem rStep_assign {sep : Char} {marks : List Str} {ts tf v : Str}
    (hts : ¬(ts = [])) (htf : trim tf = tf) (htfne : tf ≠ [])
    (hv : trim v = v) (hvne : v ≠ []) (hsep : sep ∉ tf)
    (hig : is_ignore_line marks (assignLine sep tf v) = false)
    (hhd : ¬((assignLine sep tf v).head? = some '[')) :
    ∀ cs, cs = ts → rStep sep marks ts tf cs (assignLine sep tf v) =
      .found v := by
  intro cs hcs
  subst hcs
  unfold rStep
  rw [trim_assignLine htf htfne hv hvne]
  simp only [hig, Bool.false_eq_true, if_false, hhd, hts,
    findChar_assign hsep, assign_take, assign_drop, htf, hv, and_self,
    if_pos, hvne]

theorem rScan_found_head {sep : Char} {marks : List Str} {ts tf cs x w : Str}
    (hx : rStep sep marks ts tf cs x = .found w) (rest : List Str) :
    rScan sep marks ts tf (x :: rest) cs = .found w := by
  simp [rScan, hx]

theorem rScan_cont_head {sep : Char} {marks : List Str} {ts tf cs c1 x : Str}
    (hx : rStep sep marks ts tf cs x = .cont c1) (rest : List Str) :
    rScan sep marks ts tf (x :: rest) cs = rScan sep marks ts tf rest c1 := by
  simp [rScan, hx]

/-- Bridge between one write step and the read scan of its emitted lines:
either the step emitted the new assignment (which the lookup, sharing the
same `current_section`, immediately recognises), or the lookup passes over
the emitted line reaching exactly the write's next state. -/
theorem step_bridge {sep : Char} {marks : List Str} {ts tf v : Str}
    (hasg : ∀ cs, cs = ts →
      rStep sep marks ts tf cs (assignLine sep tf v) = .found v)
    (hcstr : c_str tf = tf)
    {cs l cs' : Str} {es : List Str} {m m' : Mode}
    (h : wStep sep marks ts tf v cs m l = .emit es cs' m')
    (hside : m = .section_match → cs = ts) :
    rScan sep marks ts tf es cs = .found v ∨
      (rScan sep marks ts tf es cs = .cont cs' ∧
        (m' = .both_match → m = .both_match) ∧
        (m' = .section_match → cs' = ts)) := by
  simp only [wStep, hcstr] at h
  by_cases hig : is_ignore_line marks (trim l) = true
  · simp only [hig, if_true] at h
    cases h
    right
    refine ⟨?_, fun e => e, hside⟩
    have hstep : rStep sep marks ts tf cs (trim l) = .cont cs := by
      unfold rStep
      rw [trim_idem]
      simp [hig]
    rw [rScan_cont_head hstep []]
    rfl
  · simp only [hig, Bool.false_eq_true, if_false] at h
    by_cases hhd : (trim l).head? = some '['
    · simp only [hhd, if_true, if_pos] at h
      rcases hfind : findChar ']' (trim l) with _ | pos
      · simp [hfind] at h
      · simp only [hfind] at h
        by_cases hpos : pos = 1
        · simp [hpos] at h
        · simp only [hpos, if_false] at h
          by_cases hns : ((trim l).drop 1).take (pos - 1) = ts
          · simp only [hns, if_pos] at h
            cases h
            right
            refine ⟨?_, fun e => absurd e (by simp), fun _ => rfl⟩
            have hstep : rStep sep marks ts tf cs (trim l) = .cont ts := by
              unfold rStep
              rw [trim_idem]
              simp only [hig, Bool.false_eq_true, if_false, hhd, if_true,
                hfind, hpos, hns, if_pos]
            rw [rScan_cont_head hstep []]
            rfl
          · simp only [hns, if_false] at h
            by_cases hm : m = .section_match
            · simp only [hm, if_pos] at h
              cases h
              left
              exact rScan_found_head (hasg cs (hside hm)) _
            · simp only [hm, if_false] at h
              cases h
              right
              refine ⟨?_, fun e => e, fun e => absurd e hm⟩
              have hstep : rStep sep marks ts tf cs (trim l) =
                  .cont (((trim l).drop 1).take (pos - 1)) := by
                unfold rStep
                rw [trim_idem]
                simp only [hig, Bool.false_eq_true, if_false, hhd, if_true,
                  hfind, hpos, if_pos]
              rw [rScan_cont_head hstep []]
              rfl
    · simp only [hhd, if_false] at h
      by_cases hcs : cs = []
      · simp [hcs] at h
      · simp only [hcs, if_false] at h
        rcases hfind : findChar sep (trim l) with _ | pos
        · simp [hfind] at h
        · simp only [hfind] at h
          by_cases hmatch : cs = ts ∧ trim ((trim l).take pos) = tf
          · simp only [hmatch, and_self, if_pos] at h
            cases h
            left
            exact rScan_found_head (hasg cs hmatch.1) _
          · simp only [hmatch, if_false] at h
            cases h
            right
            refine ⟨?_, fun e => e, hside⟩
            have hstep : rStep sep marks ts tf cs (trim l) = .cont cs := by
              unfold rStep
              rw [trim_idem]
              simp only [hig, Bool.false_eq_true, if_false, hhd, hcs, hfind,
                hmatch, if_false]
            rw [rScan_cont_head hstep []]
            rfl

/-- Bridge between a whole write scan and the read scan of its output. -/
theorem scan_bridge {sep : Char} {marks : List Str} {ts tf v : Str}
    (hasg : ∀ cs, cs = ts →
      rStep sep marks ts tf cs (assignLine sep tf v) = .found v)
    (hcstr : c_str tf = tf) :
    ∀ (lines : List Str) (cs : Str) (m : Mode) (o : List Str) (c : Str)
      (mm : Mode),
      wScan sep marks ts tf v lines cs m = some (o, c, mm) →
      (m = .section_match → cs = ts) →
      rScan sep marks ts tf o cs = .found v ∨
        (rScan sep marks ts tf o cs = .cont c ∧
          (mm = .both_match → m = .both_match) ∧
          (mm = .section_match → c = ts)) := by
  intro lines
  induction lines with
  | nil =>
    intro cs m o c mm h hside
    simp only [wScan, Option.some.injEq, Prod.mk.injEq] at h
    obtain ⟨ho, hc, hm⟩ := h
    subst ho hc hm
    exact Or.inr ⟨rfl, fun e => e, hside⟩
  | cons l rest ih =>
    intro cs m o c mm h hside
    rw [wScan_cons] at h
    rcases hw : wStep sep marks ts tf v cs m l with _ | ⟨es, cs', m'⟩
    · simp [hw] at h
    · simp only [hw] at h
      rcases hs : wScan sep marks ts tf v rest cs' m' with _ | ⟨o2, c2, m2⟩
      · simp [hs] at h
      · simp only [hs, Option.some.injEq, Prod.mk.injEq] at h
        obtain ⟨ho, hc, hm⟩ := h
        subst ho hc hm
        rcases step_bridge hasg hcstr hw hside with hb1 | ⟨hb2, hbm, hbs⟩
        · left
          rw [rScan_append, hb1]
        · rcases ih cs' m' o2 c2 m2 hs hbs with ih1 | ⟨ih2, ihm, ihs⟩
          · left
            rw [rScan_append, hb2]
            exact ih1
          · right
            exact ⟨by rw [rScan_append, hb2]; exact ih2,
              fun e => hbm (ihm e), ihs⟩

theorem trim_headerLine (ts : Str) :
    trim (headerLine ts) = headerLine ts := by
  apply trim_eq_self
  · intro c hc
    have : (headerLine ts).head? = some '[' := rfl
    rw [this] at hc
    simp only [Option.mem_def, Option.some.injEq] at hc
    subst hc
    decide
  · intro c hc
    have : (headerLine ts).getLast? = some ']' := by
      rw [headerLine, List.getLast?_concat]
    rw [this] at hc
    simp only [Option.mem_def, Option.some.injEq] at hc
    subst hc
    decide

/-- The read scan of a completed rewrite output, continued through the
end-of-document appends, finds the written value. -/
theorem set_field_lines_roundtrip {sep : Char} {marks : List Str}
    {ts tf v : Str} (hts : ¬(ts = [])) (hnb : ']' ∉ ts)
    (hig_hdr : is_ignore_line marks (headerLine ts) = false)
    (hasg : ∀ cs, cs = ts →
      rStep sep marks ts tf cs (assignLine sep tf v) = .found v)
    (hcstr : c_str tf = tf)
    {lines pieces : List Str}
    (h : set_field_lines sep marks ts tf v lines = some pieces) :
    rScan sep marks ts tf pieces [] = .found v := by
  unfold set_field_lines at h
  rcases hw : wScan sep marks ts tf v lines [] .no_match with _ | ⟨o, c, mm⟩
  · rw [hw] at h; cases h
  · rw [hw] at h
    have hstep := @rStep_header sep marks ts tf c ts (headerLine ts)
      (trim_headerLine ts) hnb hts hig_hdr
    rcases scan_bridge hasg hcstr lines [] .no_match o c mm hw
        (fun e => by cases e) with hb1 | ⟨hb2, hbm, hbs⟩
    · cases mm <;> simp only [Option.some.injEq] at h <;> rw [← h] <;>
        first
          | rw [rScan_append, hb1]
          | exact hb1
    · cases mm with
      | no_match =>
        simp only [Option.some.injEq] at h
        rw [← h, rScan_append, hb2]
        show rScan sep marks ts tf [headerLine ts, assignLine sep tf v] c =
          .found v
        rw [rScan_cont_head hstep]
        exact rScan_found_head (hasg ts rfl) []
      | section_match =>
        simp only [Option.some.injEq] at h
        rw [← h, rScan_append, hb2]
        show rScan sep marks ts tf [assignLine sep tf v] c = .found v
        exact rScan_found_head (hasg c (hbs rfl)) []
      | both_match =>
        exact absurd (hbm rfl) (by simp)

/-! ### Joining and re-splitting the output buffer -/

theorem splitNlAux_no_nl {p : Str} (hp : '\n' ∉ p) :
    ∀ acc, splitNlAux p acc = [acc.reverse ++ p] := by
  induction p with
  | nil => intro acc; simp [splitNlAux]
  | cons c t ih =>
    intro acc
    have hc : ¬(c = '\n') := fun e => hp (e ▸ List.mem_cons_self c t)
    have ht : '\n' ∉ t := fun m => hp (List.mem_cons_of_mem c m)
    simp only [splitNlAux, if_neg hc, ih ht (c :: acc)]
    simp

theorem splitNlAux_break {p : Str} (hp : '\n' ∉ p) :
    ∀ acc u, splitNlAux (p ++ '\n' :: u) acc =
      (acc.reverse ++ p) :: splitNlAux u [] := by
  induction p with
  | nil => intro acc u; simp [splitNlAux]
  | cons c t ih =>
    intro acc u
    have hc : ¬(c = '\n') := fun e => hp (e ▸ List.mem_cons_self c t)
    have ht : '\n' ∉ t := fun m => hp (List.mem_cons_of_mem c m)
    simp only [List.cons_append, splitNlAux, if_neg hc, List.append_eq]
    rw [ih ht (c :: acc) u]
    simp

theorem joinNl_singleton (p : Str) : joinNl [p] = p := by
  simp [joinNl]

theorem joinNl_cons {p : Str} {rest : List Str} (h : rest ≠ []) :
    joinNl (p :: rest) = p ++ '\n' :: joinNl rest := by
  unfold joinNl
  rcases rest with _ | ⟨q, t⟩
  · exact absurd rfl h
  · simp only [List.map_cons, List.flatten_cons]
    rw [show (p ++ ['\n']) ++ ((q ++ ['\n']) ++
        ((t.map (fun x => x ++ ['\n'])).flatten)) =
      (p ++ ['\n']) ++ ((q ++ ['\n']) ++
        ((t.map (fun x => x ++ ['\n'])).flatten)) from rfl]
    rw [List.dropLast_append_of_ne_nil, List.append_assoc]
    · simp
    · exact List.append_ne_nil_of_left_ne_nil (by simp) _

theorem splitNl_joinNl :
    ∀ (pieces : List Str), pieces ≠ [] → (∀ p ∈ pieces, '\n' ∉ p) →
      splitNl (joinNl pieces) = pieces := by
  intro pieces
  induction pieces with
  | nil => intro h _; exact absurd rfl h
  | cons p rest ih =>
    intro _ hall
    have hp : '\n' ∉ p := hall p (List.mem_cons_self p rest)
    rcases hr : rest with _ | ⟨q, t⟩
    · rw [joinNl_singleton]
      unfold splitNl
      rw [splitNlAux_no_nl hp []]
      simp
    · rw [← hr]
      have hrne : rest ≠ [] := by rw [hr]; simp
      rw [joinNl_cons hrne]
      unfold splitNl
      rw [splitNlAux_break hp [] (joinNl rest)]
      have := ih hrne (fun x hx => hall x (List.mem_cons_of_mem p hx))
      unfold splitNl at this
      rw [this]
      simp

theorem splitNl_ne_nil (s : Str) : splitNl s ≠ [] := by
  unfold splitNl
  generalize ([] : Str) = acc
  induction s generalizing acc with
  | nil => simp [splitNlAux]
  | cons c t ih =>
    simp only [splitNlAux]
    split
    · simp
    · exact ih _

theorem mem_splitNl_no_nl (s : Str) : ∀ p ∈ splitNl s, '\n' ∉ p := by
  unfold splitNl
  have : ∀ (u acc : Str), '\n' ∉ acc →
      ∀ p ∈ splitNlAux u acc, '\n' ∉ p := by
    intro u
    induction u with
    | nil =>
      intro acc hacc p hp
      simp only [splitNlAux, List.mem_singleton] at hp
      subst hp
      simp only [List.mem_reverse]
      exact hacc
    | cons c t ih =>
      intro acc hacc p hp
      simp only [splitNlAux] at hp
      by_cases hc : c = '\n'
      · rw [if_pos hc] at hp
        rcases List.mem_cons.mp hp with h1 | h1
        · subst h1; simp only [List.mem_reverse]; exact hacc
        · exact ih [] (by simp) p h1
      · rw [if_neg hc] at hp
        refine ih (c :: acc) ?_ p hp
        intro hmem
        rcases List.mem_cons.mp hmem with h1 | h1
        · exact hc h1.symm
        · exact hacc h1
  exact this s [] (by simp)

theorem trim_subset {s : Str} : ∀ c ∈ trim s, c ∈ s := by
  intro c hc
  have h1 : c ∈ List.rdropWhile isWs s :=
    (List.dropWhile_suffix isWs).subset hc
  exact (List.rdropWhile_prefix isWs s).subset h1

/-- Everything the rewrite loop emits is a trimmed input line or the new
assignment. -/
theorem wScan_mem {sep : Char} {marks : List Str} {ts tf v : Str} :
    ∀ (lines : List Str) (cs : Str) (m : Mode) (o : List Str) (c : Str)
      (mm : Mode), wScan sep marks ts tf v lines cs m = some (o, c, mm) →
      ∀ p ∈ o, (∃ l ∈ lines, p = trim l) ∨ p = assignLine sep tf v ∨
        p = assignLine sep (c_str tf) v := by
  intro lines
  induction lines with
  | nil =>
    intro cs m o c mm h p hp
    simp only [wScan, Option.some.injEq, Prod.mk.injEq] at h
    rw [← h.1] at hp
    cases hp
  | cons l rest ih =>
    intro cs m o c mm h p hp
    rw [wScan_cons] at h
    rcases hw : wStep sep marks ts tf v cs m l with _ | ⟨es, cs', m'⟩
    · simp [hw] at h
    · simp only [hw] at h
      rcases hs : wScan sep marks ts tf v rest cs' m' with _ | ⟨o2, c2, m2⟩
      · simp [hs] at h
      · simp only [hs, Option.some.injEq, Prod.mk.injEq] at h
        rw [← h.1] at hp
        rcases List.mem_append.mp hp with h1 | h1
        · rcases wStep_emit_shapes hw with he | he | he <;> subst he
          · simp only [List.mem_singleton] at h1
            exact Or.inl ⟨l, List.mem_cons_self l rest, h1⟩
          · simp only [List.mem_singleton] at h1
            exact Or.inr (Or.inr h1)
          · rcases List.mem_cons.mp h1 with h2 | h2
            · exact Or.inr (Or.inl h2)
            · simp only [List.mem_singleton] at h2
              exact Or.inl ⟨l, List.mem_cons_self l rest, h2⟩
        · rcases ih cs' m' o2 c2 m2 hs p h1 with ⟨l2, hl2, hp2⟩ | h2
          · exact Or.inl ⟨l2, List.mem_cons_of_mem l hl2, hp2⟩
          · exact Or.inr h2

/-- A successful rewrite never emits a single non-empty output line longer
than one logical line: every piece is free of line terminators. -/
theorem wScan_no_nl {sep : Char} {marks : List Str} {ts tf v : Str}
    (htf_nl : '\n' ∉ tf) (hv_nl : '\n' ∉ v) (hsep_nl : ¬(sep = '\n'))
    {lines : List Str} (hlines : ∀ l ∈ lines, '\n' ∉ l)
    {cs : Str} {m : Mode} {o : List Str} {c : Str} {mm : Mode}
    (h : wScan sep marks ts tf v lines cs m = some (o, c, mm)) :
    ∀ p ∈ o, '\n' ∉ p := by
  intro p hp
  rcases wScan_mem lines cs m o c mm h p hp with ⟨l, hl, hpl⟩ | hpa | hpa
  · subst hpl
    intro hmem
    exact hlines l hl (trim_subset _ hmem)
  · subst hpa
    intro hmem
    rcases List.mem_append.mp hmem with h1 | h1
    · exact htf_nl h1
    · rcases List.mem_cons.mp h1 with h2 | h2
      · exact hsep_nl h2.symm
      · exact hv_nl h2
  · subst hpa
    intro hmem
    rcases List.mem_append.mp hmem with h1 | h1
    · exact htf_nl ((List.takeWhile_prefix _).subset h1)
    · rcases List.mem_cons.mp h1 with h2 | h2
      · exact hsep_nl h2.symm
      · exact hv_nl h2

/-- Nonempty loop output for nonempty input. -/
theorem wScan_ne_nil {sep : Char} {marks : List Str} {ts tf v : Str}
    {lines : List Str} (hlines : lines ≠ []) {cs : Str} {m : Mode}
    {o : List Str} {c : Str} {mm : Mode}
    (h : wScan sep marks ts tf v lines cs m = some (o, c, mm)) :
    o ≠ [] := by
  rcases lines with _ | ⟨l, rest⟩
  · exact absurd rfl hlines
  · rw [wScan_cons] at h
    rcases hw : wStep sep marks ts tf v cs m l with _ | ⟨es, cs', m'⟩
    · simp [hw] at h
    · simp only [hw] at h
      rcases hs : wScan sep marks ts tf v rest cs' m' with _ | ⟨o2, c2, m2⟩
      · simp [hs] at h
      · simp only [hs, Option.some.injEq, Prod.mk.injEq] at h
        rw [← h.1]
        rcases wStep_emit_shapes hw with he | he | he <;> subst he <;> simp

/-- Lines obtained from a document carry no embedded terminator. -/
theorem mem_getLines_no_nl (fs : Str) : ∀ l ∈ getLines fs, '\n' ∉ l := by
  intro l hl
  unfold getLines at hl
  by_cases h : fs = []
  · simp [h] at hl
  · rw [if_neg h] at hl
    exact mem_splitNl_no_nl fs l hl

/-- Lookup of the target pair on the text produced by a successful write
finds the written raw value. -/
theorem set_field_found {sep : Char} {marks : List Str} {ts tf v : Str}
    (hts : ¬(ts = [])) (hnb : ']' ∉ ts) (hts_nl : '\n' ∉ ts)
    (hig_hdr : is_ignore_line marks (headerLine ts) = false)
    (hasg : ∀ cs, cs = ts →
      rStep sep marks ts tf cs (assignLine sep tf v) = .found v)
    (hcstr : c_str tf = tf)
    (htf_nl : '\n' ∉ tf) (hv_nl : '\n' ∉ v) (hsep_nl : ¬(sep = '\n'))
    {fs out : Str} (h : set_field sep marks ts tf v fs = some out) :
    try_get_field sep marks ts tf out = some v := by
  unfold set_field at h
  rcases hp : set_field_lines sep marks ts tf v (getLines fs) with _ | pieces
  · rw [hp] at h; cases h
  · rw [hp] at h
    simp only [Option.map_some', Option.some.injEq] at h
    have hassign_nl : '\n' ∉ assignLine sep tf v := by
      intro hmem
      rcases List.mem_append.mp hmem with h1 | h1
      · exact htf_nl h1
      · rcases List.mem_cons.mp h1 with h2 | h2
        · exact hsep_nl h2.symm
        · exact hv_nl h2
    have hheader_nl : '\n' ∉ headerLine ts := by
      intro hmem
      rcases List.mem_append.mp hmem with h1 | h1
      · rcases List.mem_cons.mp h1 with h2 | h2
        · cases h2
        · exact hts_nl h2
      · rcases List.mem_cons.mp h1 with h2 | h2
        · cases h2
        · cases h2
    obtain ⟨hne, hnonl⟩ : pieces ≠ [] ∧ (∀ p ∈ pieces, '\n' ∉ p) := by
      unfold set_field_lines at hp
      rcases hw : wScan sep marks ts tf v (getLines fs) [] .no_match
        with _ | ⟨o, c, mm⟩
      · rw [hw] at hp; cases hp
      · rw [hw] at hp
        have honl := wScan_no_nl htf_nl hv_nl hsep_nl
          (mem_getLines_no_nl fs) hw
        cases mm <;> simp only [Option.some.injEq] at hp <;> rw [← hp]
        · refine ⟨by simp, ?_⟩
          intro p hp2
          rcases List.mem_append.mp hp2 with h1 | h1
          · exact honl p h1
          · rcases List.mem_cons.mp h1 with h2 | h2
            · rw [h2]; exact hheader_nl
            · simp only [List.mem_singleton] at h2
              rw [h2]; exact hassign_nl
        · refine ⟨by simp, ?_⟩
          intro p hp2
          rcases List.mem_append.mp hp2 with h1 | h1
          · exact honl p h1
          · simp only [List.mem_singleton] at h1
            rw [h1]; exact hassign_nl
        · have hlz : getLines fs ≠ [] := by
            intro e
            rw [e] at hw
            simp [wScan] at hw
          exact ⟨wScan_ne_nil hlz hw, honl⟩
    have hrt := set_field_lines_roundtrip hts hnb hig_hdr hasg hcstr hp
    have hout_ne : joinNl pieces ≠ [] := by
      intro e
      have h3 := splitNl_joinNl pieces hne hnonl
      rw [e] at h3
      have h2 : pieces = [[]] := by rw [← h3]; rfl
      rw [h2] at hrt
      rw [rScan_cont_head (rStep_nil sep marks ts tf []) []] at hrt
      simp [rScan] at hrt
    unfold try_get_field
    rw [← h, getLines_eq hout_ne, splitNl_joinNl pieces hne hnonl, hrt]

/-- A section-header line is never a comment under the default comment
marks. -/
theorem header_not_ignore_default (xs : Str) :
    is_ignore_line defaultCommentMarks ('[' :: xs) = false := by
  simp [is_ignore_line, defaultCommentMarks, List.isPrefixOf]

/-- The head of the written assignment is the head of the field name. -/
theorem assign_head_eq {sep : Char} {tf v : Str} (htfne : tf ≠ []) :
    (assignLine sep tf v).head? = tf.head? := by
  rcases tf with _ | ⟨c0, t0⟩
  · exact absurd rfl htfne
  · simp [assignLine]

/-- Under the default comment marks, an assignment whose field name does
not start with `[`, `#` or `;` is classified as a field line. -/
theorem assign_not_ignore_default {sep : Char} {tf v : Str} (htfne : tf ≠ [])
    (hhead : ∀ c, tf.head? = some c → ¬(c = '[') ∧ ¬(c = '#') ∧ ¬(c = ';')) :
    is_ignore_line defaultCommentMarks (assignLine sep tf v) = false ∧
    ¬((assignLine sep tf v).head? = some '[') := by
  rcases tf with _ | ⟨c0, t0⟩
  · exact absurd rfl htfne
  · obtain ⟨h1, h2, h3⟩ := hhead c0 rfl
    constructor
    · have e2 : (('#' : Char) == c0) = false :=
        beq_eq_false_iff_ne.mpr (fun e => h2 e.symm)
      have e3 : ((';' : Char) == c0) = false :=
        beq_eq_false_iff_ne.mpr (fun e => h3 e.symm)
      simp [is_ignore_line, assignLine, defaultCommentMarks,
        List.isPrefixOf, e2, e3]
    · simp only [assignLine, List.cons_append, List.head?_cons]
      intro e
      exact h1 (Option.some.inj e)

end IniHpp

namespace IniHpp

/-! ## Claim theorems -/

/-- C10: each of `read_bool`, `read_int`, `read_double` and `read_str`
performs only a read of the target file: its file-operation trace is the
single input-stream open, and applying the trace leaves the on-disk text
byte-identical, whatever the lookup outcome. -/
theorem claim_C10_reads_leave_file_unchanged :
    ∀ {α : Type} (stod : Str → Option α) (sep : Char) (marks : List Str)
      (ts tf dS : Str) (dB : Bool) (dI : Int) (dD : α) (fs : Str),
      (read_bool sep marks ts tf dB fs).2 = [.openR] ∧
      (read_int sep marks ts tf dI fs).2 = [.openR] ∧
      (read_double stod sep marks ts tf dD fs).2 = [.openR] ∧
      (read_str sep marks ts tf dS fs).2 = [.openR] ∧
      applyOps (read_bool sep marks ts tf dB fs).2 fs = fs ∧
      applyOps (read_int sep marks ts tf dI fs).2 fs = fs ∧
      applyOps (read_double stod sep marks ts tf dD fs).2 fs = fs ∧
      applyOps (read_str sep marks ts tf dS fs).2 fs = fs := by
  intro α stod sep marks ts tf dS dB dI dD fs
  refine ⟨rfl, rfl, rfl, rfl, rfl, rfl, rfl, rfl⟩

/-- C2 counterexample: the claim has `read_int` return the value parsed by
`std::stol`, but `read_int` returns an `int`, so the parsed long is
narrowed to 32 bits on the way out.  On `[A]` / `K=4294967296` the raw
value validates, `stol` parses 4294967296, yet `read_int` returns 0. -/
theorem claim_C2_counterexample :
    try_get_field '=' defaultCommentMarks ['A'] ['K']
        ['[', 'A', ']', '\n', 'K', '=',
         '4', '2', '9', '4', '9', '6', '7', '2', '9', '6'] =
      some ['4', '2', '9', '4', '9', '6', '7', '2', '9', '6'] ∧
    is_convertable_to_long
      ['4', '2', '9', '4', '9', '6', '7', '2', '9', '6'] = true ∧
    stol ['4', '2', '9', '4', '9', '6', '7', '2', '9', '6'] =
      some 4294967296 ∧
    (read_int '=' defaultCommentMarks ['A'] ['K'] 99
        ['[', 'A', ']', '\n', 'K', '=',
         '4', '2', '9', '4', '9', '6', '7', '2', '9', '6']).1 = 0 ∧
    ¬((0 : Int) = 4294967296) := by
  exact ⟨by decide, by decide, by decide, by decide, by decide⟩

/-- C2 (amended): when the lookup yields raw value `s`, `read_int` first
validates `s` with `is_convertable_to_long` (full consumption in base 10,
8 or 16), then re-parses strictly in base 10 with `stol` (whose
out-of-`long`-range or no-digit failures fall back to the default through
the catch-all), and truncates the parsed long to 32-bit two's-complement
`int` by the narrowing return conversion; in particular a raw value `0x10`
is validated (as hex-shaped) but re-parsed in decimal, yielding 0,
not 16. -/
theorem claim_C2_amended_read_int_narrowed (sep : Char) (marks : List Str)
    (ts tf : Str) (d : Int) (fs s : Str)
    (h : try_get_field sep marks ts tf fs = some s) :
    (read_int sep marks ts tf d fs).1 =
      (if is_convertable_to_long s then
        match stol s with
        | some w => narrow_int w
        | none => d
       else d) ∧
    (s = ['0', 'x', '1', '0'] → (read_int sep marks ts tf d fs).1 = 0) := by
  constructor
  · simp only [read_int, h]
  · intro hs
    subst hs
    simp only [read_int, h]
    have h1 : is_convertable_to_long ['0', 'x', '1', '0'] = true := by decide
    have h2 : stol ['0', 'x', '1', '0'] = some 0 := by decide
    rw [h1, h2]
    simp [narrow_int]

/-- A lookup that reaches a line on which the loop body takes a
`return false` branch yields nothing, whatever comes later. -/
theorem try_get_field_dead_at {sep : Char} {marks : List Str}
    {ts tf fs cs bad : Str} {pre post : List Str}
    (hsplit : splitNl fs = pre ++ bad :: post)
    (hpre : rScan sep marks ts tf pre [] = .cont cs)
    (hbad : rStep sep marks ts tf cs bad = .dead) :
    try_get_field sep marks ts tf fs = none := by
  have hbadne : bad ≠ [] := by
    intro h0
    rw [h0, rStep_nil] at hbad
    cases hbad
  have hfs : fs ≠ [] := by
    intro h0
    rw [h0] at hsplit
    have h1 : pre ++ bad :: post = ([[]] : List Str) := hsplit.symm
    exact hbadne (bad_of_singleton h1)
  unfold try_get_field
  rw [getLines_eq hfs, hsplit, rScan_append, hpre]
  show (match rScan sep marks ts tf (bad :: post) cs with
        | .found v => some v | _ => none) = none
  rw [show rScan sep marks ts tf (bad :: post) cs =
        match rStep sep marks ts tf cs bad with
        | .dead => .dead
        | .found v => .found v
        | .cont cs' => rScan sep marks ts tf post cs' from rfl]
  rw [hbad]

/-- A failed lookup makes every typed read return its default. -/
theorem reads_default_of_none {α : Type} (stod : Str → Option α)
    {sep : Char} {marks : List Str} {ts tf : Str} (dS : Str) (dB : Bool)
    (dI : Int) (dD : α) {fs : Str}
    (h : try_get_field sep marks ts tf fs = none) :
    (read_bool sep marks ts tf dB fs).1 = dB ∧
    (read_int sep marks ts tf dI fs).1 = dI ∧
    (read_double stod sep marks ts tf dD fs).1 = dD ∧
    (read_str sep marks ts tf dS fs).1 = dS := by
  refine ⟨?_, ?_, ?_, ?_⟩ <;> simp [read_bool, read_int, read_double, read_str, h]

/-- C4: the lookup is a strict forward scan: a malformed line at any
position the scan reaches before a match (bad header syntax, field-shaped
line before any header, or a non-ignored line with no separator) makes
every typed read return its supplied default, even when a genuine match
occurs later in the document. -/
theorem claim_C4_strict_scan_aborts_reads {α : Type} (stod : Str → Option α)
    (sep : Char) (marks : List Str) (ts tf : Str) (dS : Str) (dB : Bool)
    (dI : Int) (dD : α) (fs cs bad : Str) (pre post : List Str)
    (hsplit : splitNl fs = pre ++ bad :: post)
    (hpre : rScan sep marks ts tf pre [] = .cont cs)
    (hbad : malformedLine sep marks cs bad = true) :
    (read_bool sep marks ts tf dB fs).1 = dB ∧
    (read_int sep marks ts tf dI fs).1 = dI ∧
    (read_double stod sep marks ts tf dD fs).1 = dD ∧
    (read_str sep marks ts tf dS fs).1 = dS :=
  reads_default_of_none stod dS dB dI dD
    (try_get_field_of_malformed hsplit hpre hbad)

/-- Witness for C4: document `[A]` / `Z` / `[A]` / `K=x`, where the bare
`Z` aborts the lookup although `K=x` matches afterwards. -/
theorem claim_C4_witness :
    (read_bool '=' defaultCommentMarks ['A'] ['K'] true
        (['[', 'A', ']', '
', 'Z', '
'] ++
          ['[', 'A', ']', '
', 'K', '=', 'x'])).1 = true ∧
    (read_int '=' defaultCommentMarks ['A'] ['K'] 7
        (['[', 'A', ']', '
', 'Z', '
'] ++
          ['[', 'A', ']', '
', 'K', '=', 'x'])).1 = 7 ∧
    (read_double (fun _ => (none : Option Str)) '=' defaultCommentMarks
        ['A'] ['K'] ['d']
        (['[', 'A', ']', '
', 'Z', '
'] ++
          ['[', 'A', ']', '
', 'K', '=', 'x'])).1 = ['d'] ∧
    (read_str '=' defaultCommentMarks ['A'] ['K'] ['d']
        (['[', 'A', ']', '
', 'Z', '
'] ++
          ['[', 'A', ']', '
', 'K', '=', 'x'])).1 = ['d'] :=
  claim_C4_strict_scan_aborts_reads (fun _ => (none : Option Str))
    '=' defaultCommentMarks ['A'] ['K'] ['d'] true 7 ['d'] _ ['A'] ['Z']
    [['[', 'A', ']']] [['[', 'A', ']'], ['K', '=', 'x']]
    (by decide) (by decide) (by decide)

/-- C8: when the scan reaches (with no earlier match) a field line whose
section and trimmed name match the target but whose trimmed value is
empty, every typed read returns its supplied default: an empty assignment
is indistinguishable from an absent field on the read path. -/
theorem claim_C8_empty_value_reads_default {α : Type} (stod : Str → Option α)
    (sep : Char) (marks : List Str) (ts tf : Str) (dS : Str) (dB : Bool)
    (dI : Int) (dD : α) (fs cs l : Str) (pre post : List Str) (pos : Nat)
    (hsplit : splitNl fs = pre ++ l :: post)
    (hpre : rScan sep marks ts tf pre [] = .cont cs)
    (hig : is_ignore_line marks (trim l) = false)
    (hhd : ¬((trim l).head? = some '['))
    (_hcs : ¬(cs = []))
    (hsep : findChar sep (trim l) = some pos)
    (hmatch : cs = ts ∧ trim ((trim l).take pos) = tf)
    (hempty : trim ((trim l).drop (pos + 1)) = []) :
    (read_bool sep marks ts tf dB fs).1 = dB ∧
    (read_int sep marks ts tf dI fs).1 = dI ∧
    (read_double stod sep marks ts tf dD fs).1 = dD ∧
    (read_str sep marks ts tf dS fs).1 = dS := by
  refine reads_default_of_none stod dS dB dI dD
    (try_get_field_dead_at hsplit hpre ?_)
  unfold rStep
  simp only [hig, Bool.false_eq_true, if_false, hhd, hsep, hmatch,
    hempty, if_true, and_self, if_pos]
  split <;> rfl

/-- Witness for C8 on the document `[A]` / `K=  ` (value all blanks). -/
theorem claim_C8_witness :
    (read_bool '=' defaultCommentMarks ['A'] ['K'] true
        ['[', 'A', ']', '
', 'K', '=', ' ', ' ']).1 = true ∧
    (read_int '=' defaultCommentMarks ['A'] ['K'] 7
        ['[', 'A', ']', '
', 'K', '=', ' ', ' ']).1 = 7 ∧
    (read_double (fun _ => (none : Option Str)) '=' defaultCommentMarks
        ['A'] ['K'] ['d'] ['[', 'A', ']', '
', 'K', '=', ' ', ' ']).1 = ['d'] ∧
    (read_str '=' defaultCommentMarks ['A'] ['K'] ['d']
        ['[', 'A', ']', '
', 'K', '=', ' ', ' ']).1 = ['d'] :=
  claim_C8_empty_value_reads_default (fun _ => (none : Option Str))
    '=' defaultCommentMarks ['A'] ['K'] ['d'] true 7 ['d'] _ ['A']
    ['K', '=', ' ', ' '] [['[', 'A', ']']] [] 1
    (by decide) (by decide) (by decide) (by decide) (by decide) (by decide)
    (by decide) (by decide)

/-- C5: a document whose rewrite scan reaches a malformed line makes every
typed write return `false` with a file-operation trace that never opens
the file for writing, so the on-disk text is byte-identical afterwards. -/
theorem claim_C5_malformed_write_fails {α : Type} (fmt : α → Str)
    (sep : Char) (marks : List Str) (ts tf : Str) (fs cs bad : Str)
    (pre post : List Str) (v : Str) (b : Bool) (i : Int) (x : α)
    (hsplit : splitNl fs = pre ++ bad :: post)
    (hpre : ∀ w : Str, ∃ o m, wScan sep marks ts tf w pre [] .no_match =
      some (o, cs, m))
    (hbad : malformedLine sep marks cs bad = true) :
    write_str sep marks ts tf v fs = (false, [.openR]) ∧
    write_bool sep marks ts tf b fs = (false, [.openR]) ∧
    write_int sep marks ts tf i fs = (false, [.openR]) ∧
    write_double fmt sep marks ts tf x fs = (false, [.openR]) ∧
    applyOps (write_str sep marks ts tf v fs).2 fs = fs ∧
    applyOps (write_bool sep marks ts tf b fs).2 fs = fs ∧
    applyOps (write_int sep marks ts tf i fs).2 fs = fs ∧
    applyOps (write_double fmt sep marks ts tf x fs).2 fs = fs := by
  have key : ∀ w : Str, write_str sep marks ts tf w fs = (false, [.openR]) := by
    intro w
    obtain ⟨o, m, hw⟩ := hpre w
    unfold write_str
    rw [set_field_of_malformed hsplit hw hbad]
  refine ⟨key v, key _, key _, key _, ?_, ?_, ?_, ?_⟩ <;>
    simp only [write_bool, write_int, write_double, key, applyOps]

/-- Witness for C5 on the document `Z=1` / `[A]` (field before header). -/
theorem claim_C5_witness :
    write_str '=' defaultCommentMarks ['A'] ['K'] ['v']
        ['Z', '=', '1', '
', '[', 'A', ']'] = (false, [.openR]) ∧
    applyOps (write_str '=' defaultCommentMarks ['A'] ['K'] ['v']
        ['Z', '=', '1', '
', '[', 'A', ']']).2
        ['Z', '=', '1', '
', '[', 'A', ']'] =
      ['Z', '=', '1', '
', '[', 'A', ']'] := by
  have h := claim_C5_malformed_write_fails (fun s : Str => s) '='
    defaultCommentMarks ['A'] ['K'] ['Z', '=', '1', '
', '[', 'A', ']']
    [] ['Z', '=', '1'] [] [['[', 'A', ']']] ['v'] true 0 []
    (by decide) (fun w => ⟨[], .no_match, rfl⟩) (by decide)
  exact ⟨h.1, h.2.2.2.2.1⟩

/-- C1 counterexample: the write path trims every line before re-emitting
it, so a passthrough line carrying leading whitespace (` # c`) is NOT
appended byte-for-byte: replacing `K` in ` # c` / `[A]` / `K=1` emits the
comment line as `# c`, not as the original ` # c`. -/
theorem claim_C1_counterexample :
    set_field '=' defaultCommentMarks ['A'] ['K'] ['2']
        [' ', '#', ' ', 'c', '\n', '[', 'A', ']', '\n', 'K', '=', '1'] =
      some ['#', ' ', 'c', '\n', '[', 'A', ']', '\n', 'K', '=', '2'] ∧
    ¬(set_field '=' defaultCommentMarks ['A'] ['K'] ['2']
        [' ', '#', ' ', 'c', '\n', '[', 'A', ']', '\n', 'K', '=', '1'] =
      some [' ', '#', ' ', 'c', '\n', '[', 'A', ']', '\n', 'K', '=', '2']) := by
  exact ⟨by decide, by decide⟩

/-- C1 (amended): a successful write reconstructs the document from the
input lines in order: apart from at most a trailing header/assignment
append, each input line is emitted either as its TRIMMED text (leading and
trailing ASCII whitespace stripped — so a line with no surrounding
whitespace is byte-for-byte unchanged), or as the new field assignment —
whose field-name part is truncated at an embedded NUL, since the source
builds the replacement from `std::string(target_field.c_str())` —
replacing it, or as the new assignment (full field name) inserted
immediately before its trimmed text; an empty input document contributes
no lines at all. -/
theorem claim_C1_amended_trimmed_frame (sep : Char) (marks : List Str)
    (ts tf v fs out : Str)
    (h : set_field sep marks ts tf v fs = some out) :
    ∃ pieces o tail,
      set_field_lines sep marks ts tf v (getLines fs) = some pieces ∧
      out = joinNl pieces ∧ pieces = o ++ tail ∧
      Frame (assignLine sep tf v) (assignLine sep (c_str tf) v)
        (getLines fs) o ∧
      (tail = [] ∨ tail = [assignLine sep tf v] ∨
        tail = [headerLine ts, assignLine sep tf v]) := by
  unfold set_field at h
  rcases hp : set_field_lines sep marks ts tf v (getLines fs) with _ | pieces
  · rw [hp] at h; cases h
  · rw [hp] at h
    simp only [Option.map_some', Option.some.injEq] at h
    unfold set_field_lines at hp
    rcases hw : wScan sep marks ts tf v (getLines fs) [] .no_match
      with _ | ⟨o, c, mm⟩
    · rw [hw] at hp; cases hp
    · rw [hw] at hp
      have hframe := wScan_frame sep marks ts tf v _ _ _ _ _ _ hw
      cases mm with
      | no_match =>
        simp only [Option.some.injEq] at hp
        exact ⟨pieces, o, [headerLine ts, assignLine sep tf v], rfl, h.symm,
          hp.symm, hframe, Or.inr (Or.inr rfl)⟩
      | section_match =>
        simp only [Option.some.injEq] at hp
        exact ⟨pieces, o, [assignLine sep tf v], rfl, h.symm, hp.symm, hframe,
          Or.inr (Or.inl rfl)⟩
      | both_match =>
        simp only [Option.some.injEq] at hp
        refine ⟨pieces, o, [], rfl, h.symm, ?_, hframe, Or.inl rfl⟩
        rw [hp, List.append_nil]

/-- Witness for the amended C1 on `[A]` / ` x = 1 ` with a new field
appended: the padded field line is emitted trimmed. -/
theorem claim_C1_witness :
    ∃ pieces o tail,
      set_field_lines '=' defaultCommentMarks ['A'] ['K'] ['v']
        (getLines ['[', 'A', ']', '\n', ' ', 'x', ' ', '=', ' ', '1', ' ']) =
          some pieces ∧
      ['[', 'A', ']', '\n', 'x', ' ', '=', ' ', '1', '\n', 'K', '=', 'v'] =
        joinNl pieces ∧
      pieces = o ++ tail ∧
      Frame (assignLine '=' ['K'] ['v']) (assignLine '=' (c_str ['K']) ['v'])
        (getLines ['[', 'A', ']', '\n', ' ', 'x', ' ', '=', ' ', '1', ' '])
        o ∧
      (tail = [] ∨ tail = [assignLine '=' ['K'] ['v']] ∨
        tail = [headerLine ['A'], assignLine '=' ['K'] ['v']]) :=
  claim_C1_amended_trimmed_frame '=' defaultCommentMarks ['A'] ['K'] ['v']
    ['[', 'A', ']', '\n', ' ', 'x', ' ', '=', ' ', '1', ' ']
    ['[', 'A', ']', '\n', 'x', ' ', '=', ' ', '1', '\n', 'K', '=', 'v']
    (by decide)

/-- C3 counterexample: on `[A]` / `K=1` / `[A]`, writing `K=v` into `[A]`
emits the target assignment TWICE (the second `[A]` header resets the mode
from BothMatched back to SectionMatched, and the end-of-document append
fires again), refuting "emitted exactly once". -/
theorem claim_C3_counterexample :
    set_field_lines '=' defaultCommentMarks ['A'] ['K'] ['v']
        (splitNl ['[', 'A', ']', '\n', 'K', '=', '1', '\n', '[', 'A', ']']) =
      some [['[', 'A', ']'], ['K', '=', 'v'], ['[', 'A', ']'],
        ['K', '=', 'v']] ∧
    ([['[', 'A', ']'], ['K', '=', 'v'], ['[', 'A', ']'],
        ['K', '=', 'v']].count (['K', '=', 'v'] : Str)) = 2 := by
  exact ⟨by decide, by decide⟩

/-- C3 (amended): when the rewrite engine is in mode BothMatched and meets
a well-formed header naming the target section, it RESETS the mode to
SectionMatched (the assignment in the source is unguarded), so the target
assignment may be emitted again later (for example by the end-of-document
append, as in the counterexample). -/
theorem claim_C3_amended_header_resets_mode (sep : Char) (marks : List Str)
    (ts tf v hl : Str) (rest : List Str) (cs : Str)
    (htrim : trim hl = headerLine ts) (hnb : ']' ∉ ts) (hne : ts ≠ [])
    (hig : is_ignore_line marks (headerLine ts) = false) :
    wScan sep marks ts tf v (hl :: rest) cs .both_match =
      match wScan sep marks ts tf v rest ts .section_match with
      | none => none
      | some (o, c, mm) => some (trim hl :: o, c, mm) := by
  show (match wStep sep marks ts tf v cs .both_match hl with
        | .abort => none
        | .emit es cs' m' =>
          match wScan sep marks ts tf v rest cs' m' with
          | none => none
          | some (o, c, mm) => some (es ++ o, c, mm)) = _
  rw [wStep_header htrim hnb hne hig]
  simp only [if_pos rfl]
  rcases hs : wScan sep marks ts tf v rest ts .section_match
    with _ | ⟨o, c, mm⟩ <;> simp [hs]

/-- Witness for the amended C3: from BothMatched, a `[A]` header for
target section `A` leaves the engine in SectionMatched. -/
theorem claim_C3_witness :
    wScan '=' defaultCommentMarks ['A'] ['K'] ['v'] [['[', 'A', ']']] ['B']
        .both_match = some ([['[', 'A', ']']], ['A'], .section_match) := by
  rw [claim_C3_amended_header_resets_mode '=' defaultCommentMarks ['A'] ['K']
    ['v'] ['[', 'A', ']'] [] ['B'] (by decide) (by decide) (by decide)
    (by decide)]
  rfl

/-- C9: when the loaded text is nonempty and ends with a line terminator,
the rewrite loop's final failed line-read emits one empty line, so a write
that appends a new field to the last section (final mode SectionMatched)
produces the empty line immediately between the last original output line
and the appended assignment. -/
theorem claim_C9_trailing_terminator_blank_line (sep : Char)
    (marks : List Str) (ts tf v fs : Str) (o : List Str) (c : Str)
    (hne : fs ≠ []) (hnl : fs.getLast? = some '\n')
    (hscan : wScan sep marks ts tf v (splitNl fs) [] .no_match =
      some (o, c, .section_match)) :
    ∃ o', o = o' ++ [[]] ∧
      set_field_lines sep marks ts tf v (splitNl fs) =
        some (o' ++ [[]] ++ [assignLine sep tf v]) ∧
      set_field sep marks ts tf v fs =
        some (joinNl (o' ++ [[]] ++ [assignLine sep tf v])) := by
  obtain ⟨ys, hys⟩ := splitNlAux_trailing fs [] hne hnl
  have hys' : splitNl fs = ys ++ [[]] := hys
  rw [hys'] at hscan
  rw [wScan_append] at hscan
  rcases hw : wScan sep marks ts tf v ys [] .no_match with _ | ⟨o1, c1, m1⟩
  · rw [hw] at hscan; cases hscan
  · rw [hw] at hscan
    dsimp only at hscan
    rw [wScan_empty_line] at hscan
    simp only [Option.some.injEq, Prod.mk.injEq] at hscan
    obtain ⟨ho, hc, hm⟩ := hscan
    subst hm
    refine ⟨o1, ho.symm, ?_, ?_⟩
    · unfold set_field_lines
      rw [hys', wScan_append, hw]
      simp [wScan_empty_line]
    · unfold set_field set_field_lines
      rw [getLines_eq hne, hys', wScan_append, hw]
      simp [wScan_empty_line]

/-- Witness for C9 on `[A]` / `X=1` with trailing newline: the output has
a blank line between `X=1` and the appended `K=v`. -/
theorem claim_C9_witness :
    ∃ o', ([['[', 'A', ']'], ['X', '=', '1'], ([] : Str)] : List Str) =
        o' ++ [[]] ∧
      set_field_lines '=' defaultCommentMarks ['A'] ['K'] ['v']
        (splitNl ['[', 'A', ']', '\n', 'X', '=', '1', '\n']) =
          some (o' ++ [[]] ++ [assignLine '=' ['K'] ['v']]) ∧
      set_field '=' defaultCommentMarks ['A'] ['K'] ['v']
        ['[', 'A', ']', '\n', 'X', '=', '1', '\n'] =
          some (joinNl (o' ++ [[]] ++ [assignLine '=' ['K'] ['v']])) :=
  claim_C9_trailing_terminator_blank_line '=' defaultCommentMarks
    ['A'] ['K'] ['v'] ['[', 'A', ']', '\n', 'X', '=', '1', '\n']
    [['[', 'A', ']'], ['X', '=', '1'], []] ['A']
    (by decide) (by decide) (by decide)

/-- C6 counterexample: on `[A]` / `[B]` / `[A]` (target section present,
target field absent), the write does insert before the next header, but it
ALSO appends the assignment again at end of document (the duplicate `[A]`
header resets the mode), so it does not insert exactly one new line. -/
theorem claim_C6_counterexample :
    set_field_lines '=' defaultCommentMarks ['A'] ['K'] ['v']
        (splitNl ['[', 'A', ']', '\n', '[', 'B', ']', '\n', '[', 'A', ']']) =
      some [['[', 'A', ']'], ['K', '=', 'v'], ['[', 'B', ']'],
        ['[', 'A', ']'], ['K', '=', 'v']] ∧
    ([['[', 'A', ']'], ['K', '=', 'v'], ['[', 'B', ']'], ['[', 'A', ']'],
        ['K', '=', 'v']].count (['K', '=', 'v'] : Str)) = 2 := by
  exact ⟨by decide, by decide⟩

/-- C6 (amended): in a document where the target section occurs exactly
once and the target field does not occur inside it, a successful write
inserts exactly one new assignment line: immediately before the next
header when another section follows (everything else emitted trimmed, in
order), and at the very end of the document when the target section is the
last one. -/
theorem claim_C6_amended_insertion_placement (sep : Char) (marks : List Str)
    (ts tf v : Str) (hts : ¬(ts = [])) (hnb : ']' ∉ ts)
    (hig : is_ignore_line marks (headerLine ts) = false) :
    (∀ (pre body rest : List Str) (h h2 s2 cs0 : Str) (o0 : List Str),
      wScan sep marks ts tf v pre [] .no_match = some (o0, cs0, .no_match) →
      trim h = headerLine ts →
      (∀ l ∈ body, isBodyLine sep marks tf l = true) →
      trim h2 = headerLine s2 → ']' ∉ s2 → ¬(s2 = []) → ¬(s2 = ts) →
      is_ignore_line marks (headerLine s2) = false →
      (∀ l ∈ rest, ¬(headerNameOf marks l = some ts)) →
      (∃ r, wScan sep marks ts tf v rest s2 .both_match = some r) →
      set_field_lines sep marks ts tf v
          (pre ++ (h :: (body ++ (h2 :: rest)))) =
        some (pre.map trim ++ (trim h :: (body.map trim ++
          (assignLine sep tf v :: (trim h2 :: rest.map trim)))))) ∧
    (∀ (pre body : List Str) (h cs0 : Str) (o0 : List Str),
      wScan sep marks ts tf v pre [] .no_match = some (o0, cs0, .no_match) →
      trim h = headerLine ts →
      (∀ l ∈ body, isBodyLine sep marks tf l = true) →
      set_field_lines sep marks ts tf v (pre ++ (h :: body)) =
        some (pre.map trim ++ (trim h :: (body.map trim ++
          [assignLine sep tf v])))) := by
  constructor
  · intro pre body rest h h2 s2 cs0 o0 hpre htrimh hbody htrimh2 hnb2 hne2
      hs2ts hig2 hresthdr hrest
    obtain ⟨r, hr⟩ := hrest
    obtain ⟨c', hrEq, -⟩ := wScan_both_frame rest s2 r hr hs2ts hresthdr
    subst hrEq
    obtain ⟨ho0, -⟩ := wScan_no_match_frame pre [] o0 cs0 hpre
      (fun e => hts e.symm)
    subst ho0
    have hscan : wScan sep marks ts tf v (pre ++ (h :: (body ++ (h2 :: rest))))
        [] .no_match =
        some (pre.map trim ++ ([trim h] ++ (body.map trim ++
          ([assignLine sep tf v, trim h2] ++ rest.map trim))), c',
          .both_match) := by
      rw [wScan_append, hpre]
      dsimp only
      rw [wScan_cons, wStep_header htrimh hnb hts hig, if_pos rfl]
      dsimp only
      rw [wScan_append, wScan_body hts body hbody]
      dsimp only
      rw [wScan_cons, wStep_header htrimh2 hnb2 hne2 hig2, if_neg hs2ts,
        if_pos rfl]
      dsimp only
      rw [hr]
    unfold set_field_lines
    rw [hscan]
    simp
  · intro pre body h cs0 o0 hpre htrimh hbody
    obtain ⟨ho0, -⟩ := wScan_no_match_frame pre [] o0 cs0 hpre
      (fun e => hts e.symm)
    subst ho0
    have hscan : wScan sep marks ts tf v (pre ++ (h :: body)) [] .no_match =
        some (pre.map trim ++ ([trim h] ++ body.map trim), ts,
          .section_match) := by
      rw [wScan_append, hpre]
      dsimp only
      rw [wScan_cons, wStep_header htrimh hnb hts hig, if_pos rfl]
      dsimp only
      rw [wScan_body hts body hbody]
    unfold set_field_lines
    rw [hscan]
    simp

/-- Witness for the amended C6, with the specification's own example: on
`[A]` / `X=1` / `[B]` / `Y=2`, writing `Z=q` into `A` inserts `Z=q`
before `[B]`; on `[A]` / `X=1`, writing `K=v` appends `K=v` at the end. -/
theorem claim_C6_witness :
    set_field_lines '=' defaultCommentMarks ['A'] ['Z'] ['q']
        [['[', 'A', ']'], ['X', '=', '1'], ['[', 'B', ']'], ['Y', '=', '2']] =
      some [['[', 'A', ']'], ['X', '=', '1'], ['Z', '=', 'q'],
        ['[', 'B', ']'], ['Y', '=', '2']] ∧
    set_field_lines '=' defaultCommentMarks ['A'] ['K'] ['v']
        [['[', 'A', ']'], ['X', '=', '1']] =
      some [['[', 'A', ']'], ['X', '=', '1'], ['K', '=', 'v']] := by
  constructor
  · exact (claim_C6_amended_insertion_placement '=' defaultCommentMarks
      ['A'] ['Z'] ['q'] (by decide) (by decide) (by decide)).1
      [] [['X', '=', '1']] [['Y', '=', '2']] ['[', 'A', ']'] ['[', 'B', ']']
      ['B'] [] [] rfl (by decide) (by decide) (by decide) (by decide)
      (by decide) (by decide) (by decide) (by decide) ⟨_, rfl⟩
  · exact (claim_C6_amended_insertion_placement '=' defaultCommentMarks
      ['A'] ['K'] ['v'] (by decide) (by decide) (by decide)).2
      [] [['X', '=', '1']] ['[', 'A', ']'] [] [] rfl (by decide) (by decide)

/-- C7 counterexample: the round trip fails for the string type at the
empty value: writing `""` to a fresh file succeeds, but the read path
treats the resulting empty assignment as absent and returns the default
`"d" ≠ ""`. -/
theorem claim_C7_counterexample :
    (write_str '=' defaultCommentMarks ['A'] ['K'] [] []).1 = true ∧
    (read_str '=' defaultCommentMarks ['A'] ['K'] ['d']
      (applyOps (write_str '=' defaultCommentMarks ['A'] ['K'] [] []).2
        [])).1 = ['d'] ∧
    ¬((['d'] : Str) = []) := by
  exact ⟨by decide, by decide, by decide⟩

/-- C7 (amended): with the default comment marks, a well-formed target pair
(nonempty section name without `]` or line terminators; trim-stable
nonempty field name free of the separator, line terminators and NUL bytes
— a NUL would make the replacement site truncate the name — not starting
with `[`, `#` or `;`), a successful `write_T` followed by `read_T` of the
same pair returns the written value for T in {bool, int, string} — for
ints provided the value fits the 32-bit `int` range, for strings provided
the value is trim-stable, nonempty and free of line terminators.  (The
floating-point round trip is outside this model: `write_double` truncates
to the platform's default 6-significant-digit formatting.) -/
theorem claim_C7_amended_roundtrip (sep : Char) (ts tf : Str)
    (hts : ¬(ts = [])) (hnb : ']' ∉ ts) (hts_nl : '\n' ∉ ts)
    (htf : trim tf = tf) (htfne : tf ≠ []) (hsep_tf : sep ∉ tf)
    (htf_nl : '\n' ∉ tf) (htf_nul : '\x00' ∉ tf) (hsep_nl : ¬(sep = '\n'))
    (hhead : ∀ c, tf.head? = some c →
      ¬(c = '[') ∧ ¬(c = '#') ∧ ¬(c = ';')) :
    (∀ (fs : Str) (b d : Bool) (tr : List FsOp),
      write_bool sep defaultCommentMarks ts tf b fs = (true, tr) →
      (read_bool sep defaultCommentMarks ts tf d (applyOps tr fs)).1 = b) ∧
    (∀ (fs : Str) (i d : Int) (tr : List FsOp),
      -(2 ^ 31) ≤ i → i < 2 ^ 31 →
      write_int sep defaultCommentMarks ts tf i fs = (true, tr) →
      (read_int sep defaultCommentMarks ts tf d (applyOps tr fs)).1 = i) ∧
    (∀ (fs v d : Str) (tr : List FsOp),
      trim v = v → v ≠ [] → '\n' ∉ v →
      write_str sep defaultCommentMarks ts tf v fs = (true, tr) →
      (read_str sep defaultCommentMarks ts tf d (applyOps tr fs)).1 = v) := by
  have hig_hdr : is_ignore_line defaultCommentMarks (headerLine ts) =
      false := header_not_ignore_default (ts ++ [']'])
  have core : ∀ (v : Str), trim v = v → v ≠ [] → '\n' ∉ v →
      ∀ (fs : Str) (tr : List FsOp),
      write_str sep defaultCommentMarks ts tf v fs = (true, tr) →
      try_get_field sep defaultCommentMarks ts tf (applyOps tr fs) =
        some v := by
    intro v hv hvne hvnl fs tr hw
    unfold write_str at hw
    rcases hs : set_field sep defaultCommentMarks ts tf v fs with _ | r
    · rw [hs] at hw; cases hw
    · rw [hs] at hw
      simp only [Prod.mk.injEq, true_and] at hw
      obtain ⟨hig_asg, hhd_asg⟩ := assign_not_ignore_default htfne hhead
      have hasg := @rStep_assign sep defaultCommentMarks ts tf v hts htf
        htfne hv hvne hsep_tf hig_asg hhd_asg
      have happly : applyOps tr fs = r := by rw [← hw]; rfl
      rw [happly]
      exact set_field_found hts hnb hts_nl hig_hdr hasg
        (c_str_eq_self htf_nul) htf_nl hvnl hsep_nl hs
  refine ⟨?_, ?_, ?_⟩
  · intro fs b d tr hw
    cases b
    · have hfind := core ['f', 'a', 'l', 's', 'e'] (by decide) (by decide)
        (by decide) fs tr hw
      unfold read_bool
      rw [hfind]
      dsimp only
      rw [if_neg (by decide), if_pos (by decide)]
    · have hfind := core ['t', 'r', 'u', 'e'] (by decide) (by decide)
        (by decide) fs tr hw
      unfold read_bool
      rw [hfind]
      dsimp only
      rw [if_pos (by decide)]
  · intro fs i d tr hi1 hi2 hw
    have hfind := core (intToStr i) (trim_intToStr i) (intToStr_ne_nil i)
      (nl_not_mem_intToStr i) fs tr hw
    unfold read_int
    rw [hfind]
    dsimp only
    have hs1 : stol (intToStr i) = some i :=
      stol_intToStr i (by omega) (by omega)
    simp [is_convertable_intToStr, hs1, narrow_int_eq_self hi1 hi2]
  · intro fs v d tr hv hvne hvnl hw
    have hfind := core v hv hvne hvnl fs tr hw
    unfold read_str
    rw [hfind]

/-- Witness for the amended C7 on fresh files with section `A`, field `K`:
writing `true`, `-7` and `"x"` and reading them back returns each value. -/
theorem claim_C7_witness :
    (read_bool '=' defaultCommentMarks ['A'] ['K'] false
      (applyOps (write_bool '=' defaultCommentMarks ['A'] ['K'] true []).2
        [])).1 = true ∧
    (read_int '=' defaultCommentMarks ['A'] ['K'] 0
      (applyOps (write_int '=' defaultCommentMarks ['A'] ['K'] (-7) []).2
        [])).1 = -7 ∧
    (read_str '=' defaultCommentMarks ['A'] ['K'] []
      (applyOps (write_str '=' defaultCommentMarks ['A'] ['K'] ['x'] []).2
        [])).1 = ['x'] := by
  have hmain := claim_C7_amended_roundtrip '=' ['A'] ['K'] (by decide)
    (by decide) (by decide) (by decide) (by decide) (by decide) (by decide)
    (by decide) (by decide) (by decide)
  refine ⟨?_, ?_, ?_⟩
  · exact hmain.1 [] true false _ rfl
  · exact hmain.2.1 [] (-7) 0 _ (by decide) (by decide) rfl
  · exact hmain.2.2 [] ['x'] [] _ (by decide) (by decide) (by decide) rfl

/-- Witness for the amended C2 on the concrete document `[A]` /
`K=0x10`. -/
theorem claim_C2_witness :
    try_get_field '=' defaultCommentMarks ['A'] ['K']
        ['[', 'A', ']', '\n', 'K', '=', '0', 'x', '1', '0'] =
      some ['0', 'x', '1', '0'] ∧
    (read_int '=' defaultCommentMarks ['A'] ['K'] 99
        ['[', 'A', ']', '\n', 'K', '=', '0', 'x', '1', '0']).1 = 0 := by
  refine ⟨by decide, ?_⟩
  exact (claim_C2_amended_read_int_narrowed '=' defaultCommentMarks
    ['A'] ['K'] 99 _ _ (by decide)).2 rfl

end IniHpp
